import Mathlib

/-!
Trampoline scheduler: verification of `trampoline_scheduler.hpp`

A verification development for `trampoline_scheduler.hpp` and the queries of `__env.hpp` it uses.

The scheduler turns unbounded recursion of synchronously completing operations into a loop:
`start` on an operation either runs its callback inline (recursively) or, once the recursion depth
of the thread-local `__trampoline_state` has reached the operation's limit, links the operation
into an intrusive list that the outermost `start` drains.

The C++ call stack is made explicit: a thread is a record holding the thread-local `__current_`
pointer, the operations (with their intrusive `__next_` links), the stack of active calls and a
log of what happened; `step` performs one action of the innermost active call.

Depths and limits are `std::size_t` in the source and natural numbers here. The only arithmetic
on them is the increment of `__recursion_depth_` in `start`, which is guarded by
`__recursion_depth_ < __max_recursion_depth_` and so cannot wrap around.

Finite programs in which every operation is begun at most once are described by a `Plan`; the
machine, with its intrusive list, is shown to follow the plan (`begin_sim`), and the properties
of whole runs are read off the log.
-/

namespace Trampoline

/-! ## Completion signals and the stop-token query (`__env.hpp`) -/

/-- What `__execute_impl` calls: the run-time query `stop_requested()` on the token and the two
completion signals of the receiver. -/
inductive Call where
  | stop_requested
  | set_value
  | set_stopped
  deriving DecidableEq, Repr

/-- Modelled from the spec: the stop tokens of `stop_token.hpp`, which is not among the sources.
`never_stop_token` is the token type that is statically known never to signal cancellation;
`inplace_stop_token` stands for a token whose `stop_requested()` answers at run time, here with
the answer it gives when the callback runs. -/
inductive StopToken where
  | never_stop_token
  | inplace_stop_token (requested : Bool)
  deriving DecidableEq, Repr

/-- Modelled from the spec: `token.stop_requested()`, "has cancellation been requested". -/
def StopToken.stop_requested : StopToken → Bool
  | StopToken.never_stop_token => false
  | StopToken.inplace_stop_token requested => requested

/-- Modelled from the spec: the concept `unstoppable_token` of `stop_token.hpp`, true of a token
type that is statically known never to signal cancellation. The type of a token is its
constructor. -/
def unstoppable_token : StopToken → Bool
  | StopToken.never_stop_token => true
  | StopToken.inplace_stop_token _ => false

/-- An environment, as far as the stop-token query sees it: `stop_token` is `some tok` when the
environment type customises the query, `tag_invoke(get_stop_token_t, const Env&)` returning
`tok`, and `none` when it does not. -/
structure Env where
  stop_token : Option StopToken
  deriving DecidableEq, Repr

/-- The environment `empty_env`: no query is customised. -/
def empty_env : Env := { stop_token := none }

/-- One `operator()` template of a query object, as overload resolution of the call
`query(env)` sees it. `deducible` says whether every template parameter is deduced from the call
argument or has a default argument; `result` is what the operator returns for an environment, or
`none` when substituting the environment type into its declaration fails. -/
structure CallOperator where
  deducible : Bool
  result : Env → Option StopToken

/-- What a call operator contributes to the call `query(env)`: its result when it is viable. -/
def CallOperator.invoke (o : CallOperator) (env : Env) : Option StopToken :=
  if o.deducible then o.result env else none

/-- The two call operators of `get_stop_token_t` that take an environment.

* `template <class _Env> auto operator()(const _Env&) const noexcept -> never_stop_token`
  accepts every environment and returns a default-constructed `never_stop_token`.
* `template <class _Env, std::enable_if_t<tag_invocable<get_stop_token_t, const _Env&>>>
  auto operator()(const _Env& __env) const noexcept` returns `tag_invoke(get_stop_token_t{}, __env)`.
  Its second template parameter is an unnamed non-type parameter that has no default argument
  and does not occur in the function parameter list, so no call `get_stop_token(env)` can deduce
  it (the working form, used by `get_env_t` in the same file, is
  `std::enable_if_t<..., int> = 0`). -/
def get_stop_token_t.operators : List CallOperator :=
  [ { deducible := true, result := fun _ => some StopToken.never_stop_token },
    { deducible := false, result := fun env => env.stop_token } ]

/-- The call `get_stop_token(env)`: the result of the viable call operator. For every
environment exactly one operator is viable (`get_stop_token_viable`), so no ranking between
candidates takes place. -/
def get_stop_token (env : Env) : StopToken :=
  match get_stop_token_t.operators.filterMap (fun o => o.invoke env) with
  | tok :: _ => tok
  | [] => StopToken.never_stop_token

/-- Modelled from the spec: `stop_token_of_t<Env>`, the type of the token that the stop-token
query returns for the environment (its declaration is not among the sources). -/
def stop_token_of_t (env : Env) : StopToken := get_stop_token env

/-- A receiver (the continuation bound to an operation). `env` is `some e` when the receiver
customises `get_env`; `set_value` and `set_stopped` list the operations (by address) that the
receiver begins, in order, when it is given that completion signal. -/
structure Receiver where
  env : Option Env
  set_value : List Nat
  set_stopped : List Nat
  deriving DecidableEq, Repr

/-- The call `get_env(receiver)` (`get_env_t::operator()`): the receiver's customisation when it
has one, `empty_env` otherwise. -/
def get_env (r : Receiver) : Env :=
  match r.env with
  | some e => e
  | none => empty_env

/-- The body of `__operation::__t::__execute_impl` for a receiver: the calls it makes, in order. -/
def __execute_impl (r : Receiver) : List Call :=
  if unstoppable_token (stop_token_of_t (get_env r)) then
    [Call.set_value]
  else if (get_stop_token (get_env r)).stop_requested then
    [Call.stop_requested, Call.set_stopped]
  else
    [Call.stop_requested, Call.set_value]

/-- The operations a receiver begins in response to one call of `__execute_impl`. -/
def Receiver.begins (r : Receiver) : Call → List Nat
  | Call.stop_requested => []
  | Call.set_value => r.set_value
  | Call.set_stopped => r.set_stopped

/-! ## The scheduler value (`__scheduler`, `__schedule_sender`) -/

/-- The class `__scheduler`: one field, the configured depth limit. -/
structure __scheduler where
  __max_recursion_depth_ : Nat
  deriving DecidableEq, Repr

/-- The default constructor `__scheduler()`. -/
def __scheduler.default : __scheduler := { __max_recursion_depth_ := 16 }

/-- The constructor `explicit __scheduler(std::size_t)`. -/
def __scheduler.explicit (__max_recursion_depth : Nat) : __scheduler :=
  { __max_recursion_depth_ := __max_recursion_depth }

/-- The defaulted `operator==` of `__scheduler`: member-wise comparison. -/
def __scheduler.eq (a b : __scheduler) : Bool :=
  decide (a.__max_recursion_depth_ = b.__max_recursion_depth_)

/-- The task descriptor `__schedule_sender`. -/
structure __schedule_sender where
  __max_recursion_depth_ : Nat
  deriving DecidableEq, Repr

/-- The customisation `tag_invoke(schedule_t, __scheduler)`. -/
def schedule (self : __scheduler) : __schedule_sender :=
  { __max_recursion_depth_ := self.__max_recursion_depth_ }

/-- The customisation `tag_invoke(get_completion_scheduler_t<set_value_t>, __schedule_sender)`. -/
def get_completion_scheduler_set_value (self : __schedule_sender) : __scheduler :=
  __scheduler.explicit self.__max_recursion_depth_

/-- One `operator()` template of a query object that is applied to a value of type `α` and
answers with a `β`, as overload resolution of the call `query(x)` sees it: `deducible` says
whether every template parameter is deduced from the call argument or has a default argument;
`result` is what the operator returns, or `none` when substituting the argument type into its
declaration fails. -/
structure QueryOperator (α β : Type) where
  deducible : Bool
  result : α → Option β

/-- What a call operator contributes to the call `query(x)`: its result when it is viable. -/
def QueryOperator.invoke {α β : Type} (o : QueryOperator α β) (x : α) : Option β :=
  if o.deducible then o.result x else none

/-- The customisation `tag_invoke(execute_may_block_caller_t, const __scheduler&)`: the class
`__scheduler` declares none (its only friend customisation is the one of `schedule_t`). -/
def __scheduler.tag_invoke_execute_may_block_caller (_ : __scheduler) : Option Bool := none

/-- The two call operators of `execute_may_block_caller_t`, applied to a scheduler.

* `template <class _Tp, std::enable_if_t<tag_invocable<execute_may_block_caller_t,
  __cref_t<_Tp>>>> constexpr auto operator()(_Tp&& __t) const noexcept -> bool` returns
  `tag_invoke(execute_may_block_caller_t{}, std::as_const(__t))`. Its second template parameter
  cannot be deduced from a call and has no default argument; and for a `__scheduler` there is
  no such `tag_invoke` to substitute.
* `template <typename T> constexpr auto operator()(T&&) const noexcept -> bool` returns
  `true`. -/
def execute_may_block_caller_t.operators : List (QueryOperator __scheduler Bool) :=
  [ { deducible := false, result := fun s => s.tag_invoke_execute_may_block_caller },
    { deducible := true, result := fun _ => some true } ]

/-- The call `execute_may_block_caller(s)`: the result of the viable call operator (for every
scheduler exactly one is viable, `execute_may_block_caller_viable`). -/
def execute_may_block_caller (s : __scheduler) : Bool :=
  match execute_may_block_caller_t.operators.filterMap (fun o => o.invoke s) with
  | b :: _ => b
  | [] => false

/-! ## Operations, the trampoline state and the thread -/

/-- The struct `__trampoline_state`, with its default member initialisers. -/
structure __trampoline_state where
  __recursion_depth_ : Nat := 1
  __head_ : Option Nat := none
  deriving DecidableEq, Repr

/-- An operation: `__operation_base` together with the receiver that `__operation::__t` adds.
The function pointer `__execute_` always points at `__execute_impl` of the operation's own type,
so the receiver stands for it. Operations are referred to by address. -/
structure __operation where
  __next_ : Option Nat := none
  __receiver_ : Receiver
  __max_recursion_depth_ : Nat
  deriving DecidableEq, Repr

/-- The member `__schedule_sender::__make_operation`: the operation is built from the receiver
and the limit of the sender; its `__next_` takes the default member initialiser `nullptr`. -/
def __schedule_sender.__make_operation (self : __schedule_sender) (__rcvr : Receiver) :
    __operation :=
  { __receiver_ := __rcvr, __max_recursion_depth_ := self.__max_recursion_depth_ }

/-- The customisation `tag_invoke(connect_t, __schedule_sender, _Receiver)`. -/
def connect (self : __schedule_sender) (__rcvr : Receiver) : __operation :=
  self.__make_operation __rcvr

/-- What the callback of an operation leaves for its receiver to do: the operations the receiver
begins, in order, in response to the calls of `__execute_impl`. -/
def __operation.continuation (o : __operation) : List Nat :=
  (__execute_impl o.__receiver_).flatMap o.__receiver_.begins

/-- A call that is active on the thread's stack.

* `callback op pending`: the callback of `op` has delivered its signal and the receiver still
  has to begin the operations `pending`, in order.
* `outermost`: the `start` call that found no trampoline state and created one; once the
  callback above it returns it runs `__drain` and then destroys the state. -/
inductive Frame where
  | callback (op : Nat) (pending : List Nat)
  | outermost
  deriving DecidableEq, Repr

/-- What the log records: `start op` when `start` is called on an operation, `execute op calls`
when its callback is entered and makes the calls `calls`, `returned op` when the callback
returns, `defer op` when the operation is linked into the deferred list and `pop op` when the
drain loop unlinks it. -/
inductive Event where
  | start (op : Nat)
  | execute (op : Nat) (calls : List Call)
  | returned (op : Nat)
  | defer (op : Nat)
  | pop (op : Nat)
  deriving DecidableEq, Repr

/-- The thread: the thread-local `__current_` (the one trampoline state, when there is one), the
operations by address, the stack of active calls (innermost first) and the log (oldest first). -/
structure Thread where
  __current_ : Option __trampoline_state
  heap : Nat → __operation
  stack : List Frame
  log : List Event

/-- The caller's part of binding a receiver: the operation that `connect` returns is
constructed in storage of the caller's choosing, at the address `addr`. -/
def Thread.emplace (t : Thread) (addr : Nat) (o : __operation) : Thread :=
  { t with heap := Function.update t.heap addr o }

/-- The member `__operation_base::__execute`: enter the callback of `self`. It delivers the
signal chosen by `__execute_impl`; what the receiver then begins is left pending in the new
stack frame. -/
def __execute (self : Nat) (t : Thread) : Thread :=
  { t with
    stack := Frame.callback self (t.heap self).continuation :: t.stack
    log := t.log ++ [Event.execute self (__execute_impl (t.heap self).__receiver_)] }

/-- The friend `tag_invoke(start_t, __operation_base&)`, up to the point where the callback has
been entered or the operation has been deferred: with no state, create one (depth 1, empty
list; the call becomes the outermost one) and enter the callback; with a state whose depth is
below the limit of `self`, increment the depth and enter the callback; otherwise link `self` in
front of the deferred list, `__self.__next_ = std::exchange(__head_, &__self)`. -/
def start (self : Nat) (t : Thread) : Thread :=
  match t.__current_ with
  | none =>
    __execute self
      { t with
        __current_ := some {}
        stack := Frame.outermost :: t.stack
        log := t.log ++ [Event.start self] }
  | some st =>
    if st.__recursion_depth_ < (t.heap self).__max_recursion_depth_ then
      __execute self
        { t with
          __current_ := some { st with __recursion_depth_ := st.__recursion_depth_ + 1 }
          log := t.log ++ [Event.start self] }
    else
      { t with
        heap := Function.update t.heap self { t.heap self with __next_ := st.__head_ }
        __current_ := some { st with __head_ := some self }
        log := t.log ++ [Event.start self, Event.defer self] }

/-- The body of the loop of `__trampoline_state::__drain` for a non-empty list, `op` being
its head: unlink `op`, reset the depth to 1 and enter the callback of `op`. -/
def __drain (op : Nat) (t : Thread) : Thread :=
  __execute op
    { t with
      __current_ := some { __recursion_depth_ := 1, __head_ := (t.heap op).__next_ }
      log := t.log ++ [Event.pop op] }

/-- One action of the innermost active call.

* A callback whose receiver has operations left to begin calls `start` on the next one.
* A callback whose receiver has nothing left to begin returns.
* The outermost `start`, its callback (or the callback of the last loop iteration) having
  returned, tests the loop condition of `__drain`: with a non-empty list it runs the loop body;
  with an empty list the loop ends, the destructor of the state sets `__current_` to null and
  the outermost `start` returns. (An outermost `start` always finds its state in place, see
  `shape_run`.) -/
def step (t : Thread) : Thread :=
  match t.stack with
  | [] => t
  | Frame.callback op (a :: pending) :: below =>
    start a { t with stack := Frame.callback op pending :: below }
  | Frame.callback op [] :: below =>
    { t with stack := below, log := t.log ++ [Event.returned op] }
  | Frame.outermost :: below =>
    match t.__current_ with
    | none => { t with stack := below }
    | some st =>
      match st.__head_ with
      | none => { t with __current_ := none, stack := below }
      | some op => __drain op t

/-- The thread after `n` actions. -/
def run : Nat → Thread → Thread
  | 0, t => t
  | n + 1, t => run n (step t)

/-- A thread on which no `start` call is active. -/
def idle (heap : Nat → __operation) : Thread :=
  { __current_ := none, heap := heap, stack := [], log := [] }

/-- The thread right after `start` has been called on `op` with no `start` call active. -/
def begin (heap : Nat → __operation) (op : Nat) : Thread := start op (idle heap)

/-- The number of callbacks that are active (nested inside one another). -/
def active (t : Thread) : Nat :=
  t.stack.countP (fun f => match f with | Frame.callback _ _ => true | Frame.outermost => false)


/-! ## Finite programs of `start` calls -/

/-- A finite program of `start` calls in which every operation is an object of its own: the
operations that one caller begins one after another. `op addr inside after` begins the operation
at `addr`, whose callback, when it runs, begins `inside`; once that `start` call has returned
the caller goes on with `after`. -/
inductive Plan where
  | done
  | op (addr : Nat) (inside : Plan) (after : Plan)
  deriving DecidableEq, Repr

/-- The operations the caller itself begins, in order. -/
def Plan.roots : Plan → List Nat
  | Plan.done => []
  | Plan.op a _ after => a :: after.roots

/-- Every operation of the program. -/
def Plan.addrs : Plan → List Nat
  | Plan.done => []
  | Plan.op a inside after => a :: (inside.addrs ++ after.addrs)

/-- The number of operations of the program. -/
def Plan.size : Plan → Nat
  | Plan.done => 0
  | Plan.op _ inside after => inside.size + after.size + 1

/-- The operations in memory follow the program: the receiver of every operation of the plan
begins exactly the operations the plan lists inside it. -/
def Plan.realized (heap : Nat → __operation) : Plan → Prop
  | Plan.done => True
  | Plan.op a inside after =>
    (heap a).continuation = inside.roots ∧ inside.realized heap ∧ after.realized heap

/-- Whether the operations in memory follow a plan can be checked. -/
def Plan.decRealized (heap : Nat → __operation) : (p : Plan) → Decidable (p.realized heap)
  | Plan.done => isTrue trivial
  | Plan.op a inside after =>
    match decEq (heap a).continuation inside.roots, Plan.decRealized heap inside,
      Plan.decRealized heap after with
    | isTrue h1, isTrue h2, isTrue h3 => isTrue ⟨h1, h2, h3⟩
    | isFalse h1, _, _ => isFalse (fun h => h1 h.1)
    | _, isFalse h2, _ => isFalse (fun h => h2 h.2.1)
    | _, _, isFalse h3 => isFalse (fun h => h3 h.2.2)

instance (heap : Nat → __operation) (p : Plan) : Decidable (p.realized heap) :=
  Plan.decRealized heap p

/-- The intrusive list that starts at `head` and follows the `__next_` links consists of the
operations `l`, in order, and ends with a null link. -/
def IsList (heap : Nat → __operation) : Option Nat → List Nat → Prop
  | head, [] => head = none
  | head, a :: l => head = some a ∧ IsList heap (heap a).__next_ l

/-- The operations of `heap` are those of `heap0` up to their `__next_` links. -/
def SameOps (heap0 heap : Nat → __operation) : Prop :=
  ∀ a, (heap a).__receiver_ = (heap0 a).__receiver_ ∧
    (heap a).__max_recursion_depth_ = (heap0 a).__max_recursion_depth_

/-- What beginning a program inside a callback amounts to. -/
structure Outcome where
  depth : Nat
  deferred : List (Nat × Plan)
  events : List Event

/-- The outcome of beginning the operations of a plan one after another inside a callback, the
recursion depth being `d`: the depth afterwards, the operations that were deferred (most
recent first, each with the plan of its callback) and what is logged. -/
def Plan.inline (heap : Nat → __operation) : Plan → Nat → Outcome
  | Plan.done, d => { depth := d, deferred := [], events := [] }
  | Plan.op a inside after, d =>
    if d < (heap a).__max_recursion_depth_ then
      let o1 := inside.inline heap (d + 1)
      let o2 := after.inline heap o1.depth
      { depth := o2.depth
        deferred := o2.deferred ++ o1.deferred
        events := Event.start a :: Event.execute a (__execute_impl (heap a).__receiver_) ::
          (o1.events ++ Event.returned a :: o2.events) }
    else
      let o2 := after.inline heap d
      { depth := o2.depth
        deferred := o2.deferred ++ [(a, inside)]
        events := Event.start a :: Event.defer a :: o2.events }

/-- The number of operations that a list of deferred operations still stands for. -/
def weight : List (Nat × Plan) → Nat
  | [] => 0
  | (_, p) :: q => p.size + 1 + weight q

/-- Every operation that a list of deferred operations still stands for. -/
def pendingAddrs : List (Nat × Plan) → List Nat
  | [] => []
  | (a, p) :: q => a :: (p.addrs ++ pendingAddrs q)

/-- What the drain loop logs for a list of deferred operations (most recent first), given
enough iterations. -/
def drainEvents (heap : Nat → __operation) : Nat → List (Nat × Plan) → List Event
  | 0, _ => []
  | _ + 1, [] => []
  | fuel + 1, (a, p) :: q =>
    Event.pop a :: Event.execute a (__execute_impl (heap a).__receiver_) ::
      ((p.inline heap 1).events ++ Event.returned a ::
        drainEvents heap fuel ((p.inline heap 1).deferred ++ q))

/-- What an outermost `start` of `root`, whose callback begins `inside`, logs. -/
def outermostEvents (heap : Nat → __operation) (root : Nat) (inside : Plan) : List Event :=
  Event.start root :: Event.execute root (__execute_impl (heap root).__receiver_) ::
    ((inside.inline heap 1).events ++ Event.returned root ::
      drainEvents heap (weight (inside.inline heap 1).deferred) (inside.inline heap 1).deferred)

/-- The operations whose callback was entered, in order of execution. -/
def executed : List Event → List Nat
  | [] => []
  | Event.execute a _ :: l => a :: executed l
  | _ :: l => executed l

/-- The operations on which `start` was called, in order. -/
def begun : List Event → List Nat
  | [] => []
  | Event.start a :: l => a :: begun l
  | _ :: l => begun l

/-- The deferred operations that are still linked in the list after the events of a log that
starts with the operations `S` linked, most recent first. -/
def pendingFrom : List Nat → List Event → List Nat
  | S, [] => S
  | S, Event.defer a :: l => pendingFrom (a :: S) l
  | S, Event.pop a :: l => pendingFrom (S.erase a) l
  | S, Event.start _ :: l => pendingFrom S l
  | S, Event.execute _ _ :: l => pendingFrom S l
  | S, Event.returned _ :: l => pendingFrom S l

/-- The deferred operations that are pending after the events of a log that starts with none
pending, most recent first. -/
def pending (l : List Event) : List Nat := pendingFrom [] l

/-- Replays a log against a stack of deferred operations: `defer` pushes, and `pop` must take
the operation on top. The result is the stack afterwards, or `none` when some `pop` took another
operation than the one on top. -/
def lifo : List Nat → List Event → Option (List Nat)
  | S, [] => some S
  | S, Event.defer a :: l => lifo (a :: S) l
  | [], Event.pop _ :: _ => none
  | b :: S, Event.pop a :: l => if a = b then lifo S l else none
  | S, Event.start _ :: l => lifo S l
  | S, Event.execute _ _ :: l => lifo S l
  | S, Event.returned _ :: l => lifo S l

/-- Every `pop` of the log is directly followed by the execution of the popped operation. -/
def popsRun : List Event → Bool
  | [] => true
  | Event.pop a :: l =>
    (match l with
      | Event.execute b _ :: _ => decide (a = b)
      | _ => false) && popsRun l
  | Event.defer _ :: l => popsRun l
  | Event.start _ :: l => popsRun l
  | Event.execute _ _ :: l => popsRun l
  | Event.returned _ :: l => popsRun l

/-- The shape of the stack during an outermost `start`: either no call is active and there is
no state, or there is a state and the stack is a run of callbacks above the outermost `start`. -/
def Shape (t : Thread) : Prop :=
  (t.stack = [] ∧ t.__current_ = none) ∨
    ∃ st cbs, t.__current_ = some st ∧ t.stack = cbs ++ [Frame.outermost] ∧
      ∀ f ∈ cbs, f ≠ Frame.outermost

/-- The shape of the stack during an outermost `start`, for operations that all carry the limit
`L`: either no call is active and there is no state, or the stack is a run of callbacks above the
outermost `start`, no longer than the recursion depth, which is at most `L`. -/
def Bounded (L : Nat) (t : Thread) : Prop :=
  (∀ a, (t.heap a).__max_recursion_depth_ = L) ∧
  ((t.stack = [] ∧ t.__current_ = none) ∨
    ∃ st cbs, t.__current_ = some st ∧ t.stack = cbs ++ [Frame.outermost] ∧
      (∀ f ∈ cbs, f ≠ Frame.outermost) ∧
      cbs.length ≤ st.__recursion_depth_ ∧ st.__recursion_depth_ ≤ L)


/-- Operations that all have the limit `L` and receivers with the environment `env`; the
receiver of the operation at `a`, given either completion signal, begins the operations
`begins a`. -/
def ops (L : Nat) (env : Option Env) (begins : Nat → List Nat) : Nat → __operation := fun a =>
  { __receiver_ := { env := env, set_value := begins a, set_stopped := begins a }
    __max_recursion_depth_ := L }

/-- The chain of `N` operations at the addresses `0, ..., N - 1`, all with the limit `L` and
receivers with the environment `env`: the receiver of each operation begins the next one. -/
def chain (N L : Nat) (env : Option Env) : Nat → __operation :=
  ops L env (fun a => if a + 1 < N then [a + 1] else [])

/-- A small program with siblings: the callback of operation 0 begins 1 and then 2, that of
operation 1 begins 3. -/
def fanBegins : Nat → List Nat
  | 0 => [1, 2]
  | 1 => [3]
  | _ => []

/-- The plan of the callback of operation 0 in the program `fanBegins`. -/
def fanInside : Plan :=
  Plan.op 1 (Plan.op 3 Plan.done Plan.done) (Plan.op 2 Plan.done Plan.done)


/-- The plan of a chain of `k` operations that starts at the address `a`: the callback of each
operation begins the next one. -/
def chainPlan : Nat → Nat → Plan
  | 0, _ => Plan.done
  | k + 1, a => Plan.op a (chainPlan k (a + 1)) Plan.done

/-- The log of `j` operations, from the address `a` on, that run nested inside one another. -/
def descend (heap : Nat → __operation) : Nat → Nat → List Event
  | _, 0 => []
  | a, j + 1 =>
    Event.start a :: Event.execute a (__execute_impl (heap a).__receiver_) ::
      descend heap (a + 1) j

/-- The log of the returns of `j` nested callbacks, from the address `a` on, innermost first. -/
def ascend : Nat → Nat → List Event
  | _, 0 => []
  | a, j + 1 => ascend (a + 1) j ++ [Event.returned a]

/-- The deepest nesting of callbacks that a log reaches, starting with `cur` active callbacks and
the deepest level so far `mx`. -/
def nestingFrom : Nat → Nat → List Event → Nat
  | _, mx, [] => mx
  | cur, mx, Event.execute _ _ :: l => nestingFrom (cur + 1) (max mx (cur + 1)) l
  | cur, mx, Event.returned _ :: l => nestingFrom (cur - 1) mx l
  | cur, mx, Event.start _ :: l => nestingFrom cur mx l
  | cur, mx, Event.defer _ :: l => nestingFrom cur mx l
  | cur, mx, Event.pop _ :: l => nestingFrom cur mx l

/-- The number of levels of native recursion in a log: the largest number of callbacks that are
active (nested inside one another) at one time. -/
def maxNesting (l : List Event) : Nat := nestingFrom 0 0 l

/-- The part of a log before the first deferral. -/
def beforeFirstDefer : List Event → List Event
  | [] => []
  | Event.defer _ :: _ => []
  | e :: l => e :: beforeFirstDefer l

/-- The part of a log that the drain loop produces: from its first pop on. -/
def viaDrain : List Event → List Event
  | [] => []
  | Event.pop a :: l => Event.pop a :: l
  | _ :: l => viaDrain l

/-- What the spec promises of the log of a chain of `N` operations with limit `L`: `min N L`
levels of native recursion before the first deferral, the remaining `N - L` operations
`L, ..., N - 1` executed by way of the drain loop, and all `N` operations `0, ..., N - 1`
executed exactly once. -/
def ChainClaim (N L : Nat) (log : List Event) : Prop :=
  maxNesting (beforeFirstDefer log) = min N L ∧
    executed (viaDrain log) = List.range' L (N - L) ∧
    executed log = List.range N

instance (N L : Nat) (log : List Event) : Decidable (ChainClaim N L log) := by
  unfold ChainClaim
  exact inferInstance

/-- The operations of `heap` with every limit 0 replaced by 1. -/
def raiseZero (heap : Nat → __operation) : Nat → __operation := fun a =>
  { heap a with
    __max_recursion_depth_ :=
      if (heap a).__max_recursion_depth_ = 0 then 1 else (heap a).__max_recursion_depth_ }

/-- The thread `t` with every limit 0 of its operations replaced by 1. -/
def Thread.raiseZero (t : Thread) : Thread :=
  { t with heap := Trampoline.raiseZero t.heap }

/-- A program with two siblings: the callback of operation 0 begins 1 and then 2. -/
def pairBegins : Nat → List Nat
  | 0 => [1, 2]
  | _ => []

/-- The thread at the moment the callback of operation 0 of `pairBegins`, with limit 2, calls
`start` on operation 1: operation 2 is the sibling that the callback begins next. -/
def pairThread : Thread :=
  { begin (ops 2 none pairBegins) 0 with stack := [Frame.callback 0 [2], Frame.outermost] }

/-- The operations that were deferred, in order of deferral. -/
def deferred : List Event → List Nat
  | [] => []
  | Event.defer a :: l => a :: deferred l
  | _ :: l => deferred l

/-- The operations that the drain loop popped, in order. -/
def popped : List Event → List Nat
  | [] => []
  | Event.pop a :: l => a :: popped l
  | _ :: l => popped l

/-- A log cut at the pops of the drain loop: what precedes the first pop, and then one segment
for every iteration of the loop, each starting with its pop. -/
def segments : List Event → List Event × List (List Event)
  | [] => ([], [])
  | Event.pop a :: l => ([], (Event.pop a :: (segments l).1) :: (segments l).2)
  | Event.start a :: l => (Event.start a :: (segments l).1, (segments l).2)
  | Event.execute a c :: l => (Event.execute a c :: (segments l).1, (segments l).2)
  | Event.returned a :: l => (Event.returned a :: (segments l).1, (segments l).2)
  | Event.defer a :: l => (Event.defer a :: (segments l).1, (segments l).2)

/-- The logs of the iterations of the drain loop, in order. -/
def iterations (l : List Event) : List (List Event) := (segments l).2

/-- What is logged after the callback of the operation at `a` of a chain has been entered at
depth 1, `k` operations following it in the chain: the rest of the chain begun inside the
callback, the return of the callback, and the drain loop with `fuel` iterations at most. -/
def chainTail (heap : Nat → __operation) (fuel a k : Nat) : List Event :=
  ((chainPlan k (a + 1)).inline heap 1).events ++
    Event.returned a :: drainEvents heap fuel ((chainPlan k (a + 1)).inline heap 1).deferred
theorem run_succ (n : Nat) (t : Thread) : run (n + 1) t = step (run n t) := by
  induction n generalizing t with
  | zero => rfl
  | succ k ih => exact ih (step t)

theorem run_add (m n : Nat) (t : Thread) : run (m + n) t = run n (run m t) := by
  induction m generalizing t with
  | zero => simp [run]
  | succ k ih =>
    have h : k + 1 + n = (k + n) + 1 := by omega
    rw [h]
    simp only [run]
    exact ih (step t)

theorem countP_callbacks (cbs : List Frame) (h : ∀ f ∈ cbs, f ≠ Frame.outermost) :
    (cbs ++ [Frame.outermost]).countP
      (fun f => match f with | Frame.callback _ _ => true | Frame.outermost => false)
      = cbs.length := by
  induction cbs with
  | nil => rfl
  | cons f fs ih =>
    have hf : f ≠ Frame.outermost := h f (List.mem_cons_self _ _)
    have hfs : ∀ g ∈ fs, g ≠ Frame.outermost := fun g hg => h g (List.mem_cons_of_mem _ hg)
    cases f with
    | outermost => exact absurd rfl hf
    | callback op pending =>
      simp only [List.cons_append, List.length_cons]
      rw [List.countP_cons_of_pos]
      · rw [ih hfs]
      · rfl

theorem bounded_begin (L : Nat) (hL : 1 ≤ L) (heap : Nat → __operation)
    (hlim : ∀ a, (heap a).__max_recursion_depth_ = L) (root : Nat) :
    Bounded L (begin heap root) := by
  refine ⟨hlim, Or.inr ⟨{}, [Frame.callback root (heap root).continuation], rfl, rfl, ?_, ?_, ?_⟩⟩
  · intro f hf
    simp only [List.mem_singleton] at hf
    subst hf
    simp
  · simp
  · exact hL

theorem bounded_step (L : Nat) (hL : 1 ≤ L) (t : Thread) (h : Bounded L t) :
    Bounded L (step t) := by
  obtain ⟨hlim, hshape⟩ := h
  rcases hshape with ⟨hs, hc⟩ | ⟨st, cbs, hc, hs, hcb, hlen, hle⟩
  · have : step t = t := by simp [step, hs]
    rw [this]
    exact ⟨hlim, Or.inl ⟨hs, hc⟩⟩
  · cases cbs with
    | nil =>
      simp only [List.nil_append] at hs
      cases hh : st.__head_ with
      | none =>
        refine ⟨?_, Or.inl ?_⟩
        · simpa [step, hs, __drain, hc, hh] using hlim
        · simp [step, hs, __drain, hc, hh]
      | some op =>
        refine ⟨?_, Or.inr ⟨{ __recursion_depth_ := 1, __head_ := (t.heap op).__next_ },
          [Frame.callback op (t.heap op).continuation], ?_, ?_, ?_, ?_, ?_⟩⟩
        · simpa [step, hs, __drain, hc, hh, __execute] using hlim
        · simp [step, hs, __drain, hc, hh, __execute]
        · simp only [step, hs, __drain, hc, hh, __execute]
          rfl
        · intro f hf
          simp only [List.mem_singleton] at hf
          subst hf
          simp
        · simp
        · exact hL
    | cons f fs =>
      have hf : f ≠ Frame.outermost := hcb f (List.mem_cons_self _ _)
      have hfs : ∀ g ∈ fs, g ≠ Frame.outermost := fun g hg => hcb g (List.mem_cons_of_mem _ hg)
      simp only [List.length_cons] at hlen
      cases f with
      | outermost => exact absurd rfl hf
      | callback op pending =>
        simp only [List.cons_append] at hs
        cases pending with
        | nil =>
          refine ⟨?_, Or.inr ⟨st, fs, ?_, ?_, hfs, by omega, hle⟩⟩
          · simpa [step, hs] using hlim
          · simpa [step, hs] using hc
          · simp [step, hs]
        | cons a rest =>
          by_cases hd : st.__recursion_depth_ < (t.heap a).__max_recursion_depth_
          · refine ⟨?_, Or.inr ⟨{ st with __recursion_depth_ := st.__recursion_depth_ + 1 },
              Frame.callback a (t.heap a).continuation :: Frame.callback op rest :: fs, ?_, ?_, ?_, ?_, ?_⟩⟩
            · simpa [step, hs, start, hc, hd, __execute] using hlim
            · simp [step, hs, start, hc, hd, __execute]
            · simp only [step, hs, start, hc, hd, __execute]
              rfl
            · intro g hg
              simp only [List.mem_cons] at hg
              rcases hg with rfl | rfl | hg
              · simp
              · simp
              · exact hfs g hg
            · simp only [List.length_cons]
              omega
            · rw [hlim a] at hd
              simp only
              omega
          · refine ⟨?_, Or.inr ⟨{ st with __head_ := some a },
              Frame.callback op rest :: fs, ?_, ?_, ?_, ?_, hle⟩⟩
            · intro b
              simp only [step, hs, start, hc, hd, if_false]
              by_cases hb : b = a
              · subst hb
                simp [hlim b]
              · simp [Function.update_noteq hb, hlim b]
            · simp [step, hs, start, hc, hd]
            · simp [step, hs, start, hc, hd]
            · intro g hg
              simp only [List.mem_cons] at hg
              rcases hg with rfl | hg
              · simp
              · exact hfs g hg
            · simp only [List.length_cons]
              omega

theorem bounded_run (L : Nat) (hL : 1 ≤ L) (n : Nat) (t : Thread) (h : Bounded L t) :
    Bounded L (run n t) := by
  induction n with
  | zero => exact h
  | succ k ih =>
    rw [run_succ]
    exact bounded_step L hL _ ih

theorem bounded_active (L : Nat) (t : Thread) (h : Bounded L t) :
    active t ≤ L ∧
      ∀ st, t.__current_ = some st →
        active t ≤ st.__recursion_depth_ ∧ st.__recursion_depth_ ≤ L := by
  obtain ⟨_, hshape⟩ := h
  rcases hshape with ⟨hs, hc⟩ | ⟨st, cbs, hc, hs, hcb, hlen, hle⟩
  · refine ⟨by simp [active, hs], ?_⟩
    intro st hst
    rw [hc] at hst
    exact absurd hst (by simp)
  · have ha : active t = cbs.length := by
      unfold active
      rw [hs]
      exact countP_callbacks cbs hcb
    refine ⟨by omega, ?_⟩
    intro st2 hst
    rw [hc] at hst
    cases hst
    exact ⟨by omega, hle⟩


/-! ### The machine follows the plan -/

theorem isList_update (heap : Nat → __operation) (a : Nat) (o : __operation) (l : List Nat)
    (ha : a ∉ l) (head : Option Nat) (h : IsList heap head l) :
    IsList (Function.update heap a o) head l := by
  induction l generalizing head with
  | nil => exact h
  | cons b l ih =>
    obtain ⟨h1, h2⟩ := h
    have hba : b ≠ a := fun e => ha (by simp [e])
    have hal : a ∉ l := fun e => ha (List.mem_cons_of_mem _ e)
    refine ⟨h1, ?_⟩
    rw [Function.update_noteq hba]
    exact ih hal _ h2

theorem sameOps_update (heap0 heap : Nat → __operation) (h : SameOps heap0 heap) (a : Nat)
    (nx : Option Nat) :
    SameOps heap0 (Function.update heap a { heap a with __next_ := nx }) := by
  intro b
  by_cases hb : b = a
  · subst hb
    simpa using h b
  · rw [Function.update_noteq hb]
    exact h b

theorem sameOps_continuation (heap0 heap : Nat → __operation) (h : SameOps heap0 heap) (a : Nat) :
    (heap a).continuation = (heap0 a).continuation := by
  unfold __operation.continuation
  rw [(h a).1]


theorem step_inline (t : Thread) (st : __trampoline_state) (p a : Nat) (pending : List Nat)
    (below : List Frame) (hs : t.stack = Frame.callback p (a :: pending) :: below)
    (hc : t.__current_ = some st)
    (hlt : st.__recursion_depth_ < (t.heap a).__max_recursion_depth_) :
    step t =
      { __current_ := some { st with __recursion_depth_ := st.__recursion_depth_ + 1 }
        heap := t.heap
        stack := Frame.callback a (t.heap a).continuation :: Frame.callback p pending :: below
        log := t.log ++
          [Event.start a, Event.execute a (__execute_impl (t.heap a).__receiver_)] } := by
  simp [step, hs, start, hc, hlt, __execute]

theorem step_defer (t : Thread) (st : __trampoline_state) (p a : Nat) (pending : List Nat)
    (below : List Frame) (hs : t.stack = Frame.callback p (a :: pending) :: below)
    (hc : t.__current_ = some st)
    (hge : ¬ st.__recursion_depth_ < (t.heap a).__max_recursion_depth_) :
    step t =
      { __current_ := some { st with __head_ := some a }
        heap := Function.update t.heap a { t.heap a with __next_ := st.__head_ }
        stack := Frame.callback p pending :: below
        log := t.log ++ [Event.start a, Event.defer a] } := by
  simp [step, hs, start, hc, hge]

theorem step_returned (t : Thread) (p : Nat) (below : List Frame)
    (hs : t.stack = Frame.callback p [] :: below) :
    step t =
      { __current_ := t.__current_, heap := t.heap, stack := below
        log := t.log ++ [Event.returned p] } := by
  simp [step, hs]

theorem step_pop (t : Thread) (st : __trampoline_state) (a : Nat) (below : List Frame)
    (hs : t.stack = Frame.outermost :: below) (hc : t.__current_ = some st)
    (hh : st.__head_ = some a) :
    step t =
      { __current_ := some { __recursion_depth_ := 1, __head_ := (t.heap a).__next_ }
        heap := t.heap
        stack := Frame.callback a (t.heap a).continuation :: Frame.outermost :: below
        log := t.log ++ [Event.pop a, Event.execute a (__execute_impl (t.heap a).__receiver_)] } := by
  simp [step, hs, __drain, hc, hh, __execute]

theorem step_exit (t : Thread) (st : __trampoline_state) (below : List Frame)
    (hs : t.stack = Frame.outermost :: below) (hc : t.__current_ = some st)
    (hh : st.__head_ = none) :
    step t = { __current_ := none, heap := t.heap, stack := below, log := t.log } := by
  simp [step, hs, __drain, hc, hh]

theorem inline_deferred_addrs (heap : Nat → __operation) (plan : Plan) :
    ∀ d x, x ∈ (plan.inline heap d).deferred → x.1 ∈ plan.addrs := by
  induction plan with
  | done =>
    intro d x hx
    simp [Plan.inline] at hx
  | op a inside after ih_in ih_af =>
    intro d x hx
    unfold Plan.inline at hx
    by_cases hlt : d < (heap a).__max_recursion_depth_
    · simp only [hlt, if_true, List.mem_append] at hx
      simp only [Plan.addrs, List.mem_cons, List.mem_append]
      rcases hx with hx | hx
      · exact Or.inr (Or.inr (ih_af _ x hx))
      · exact Or.inr (Or.inl (ih_in _ x hx))
    · simp only [hlt, if_false, List.mem_append, List.mem_singleton] at hx
      simp only [Plan.addrs, List.mem_cons, List.mem_append]
      rcases hx with hx | hx
      · exact Or.inr (Or.inr (ih_af _ x hx))
      · subst hx
        exact Or.inl rfl

theorem inline_sim (heap0 : Nat → __operation) (plan : Plan) :
    ∀ (d : Nat) (q : List Nat) (t : Thread) (st : __trampoline_state) (p : Nat)
      (rest : List Nat) (below : List Frame),
      t.__current_ = some st → st.__recursion_depth_ = d → IsList t.heap st.__head_ q →
      SameOps heap0 t.heap → plan.realized heap0 →
      t.stack = Frame.callback p (plan.roots ++ rest) :: below →
      plan.addrs.Nodup → (∀ a ∈ plan.addrs, a ∉ q) →
      ∃ n st2, (run n t).__current_ = some st2 ∧
        st2.__recursion_depth_ = (plan.inline heap0 d).depth ∧
        IsList (run n t).heap st2.__head_ ((plan.inline heap0 d).deferred.map Prod.fst ++ q) ∧
        SameOps heap0 (run n t).heap ∧
        (run n t).stack = Frame.callback p rest :: below ∧
        (run n t).log = t.log ++ (plan.inline heap0 d).events := by
  induction plan with
  | done =>
    intro d q t st p rest below hc hd hl hso _ hs _ _
    refine ⟨0, st, hc, hd, ?_, hso, ?_, ?_⟩
    · simpa [Plan.inline, run] using hl
    · simpa [Plan.roots, run] using hs
    · simp [Plan.inline, run]
  | op a inside after ih_in ih_af =>
    intro d q t st p rest below hc hd hl hso hr hs hnd hdisj
    obtain ⟨hcont, hrin, hraf⟩ := hr
    simp only [Plan.addrs, List.nodup_cons, List.nodup_append, List.mem_append, not_or] at hnd
    obtain ⟨⟨ha_in, ha_af⟩, hnd_in, hnd_af, hdj⟩ := hnd
    have hs2 : t.stack = Frame.callback p (a :: (after.roots ++ rest)) :: below := by
      simpa [Plan.roots] using hs
    have hmax : (t.heap a).__max_recursion_depth_ = (heap0 a).__max_recursion_depth_ := (hso a).2
    have hrecv : (t.heap a).__receiver_ = (heap0 a).__receiver_ := (hso a).1
    have hdisj_in : ∀ b ∈ inside.addrs, b ∉ q := fun b hb =>
      hdisj b (by simp [Plan.addrs, hb])
    have hdisj_af : ∀ b ∈ after.addrs, b ∉ q := fun b hb =>
      hdisj b (by simp [Plan.addrs, hb])
    have ha_q : a ∉ q := hdisj a (by simp [Plan.addrs])
    by_cases hlt : d < (heap0 a).__max_recursion_depth_
    · have hlt2 : st.__recursion_depth_ < (t.heap a).__max_recursion_depth_ := by
        rw [hd, hmax]; exact hlt
      have h1 := step_inline t st p a (after.roots ++ rest) below hs2 hc hlt2
      have hcont2 : (t.heap a).continuation = inside.roots ++ [] := by
        rw [sameOps_continuation heap0 t.heap hso a, hcont, List.append_nil]
      obtain ⟨n1, st1, h2c, h2d, h2l, h2so, h2s, h2log⟩ :=
        ih_in (d + 1) q (step t) { st with __recursion_depth_ := st.__recursion_depth_ + 1 } a []
          (Frame.callback p (after.roots ++ rest) :: below)
          (by rw [h1]) (by simp [hd]) (by rw [h1]; exact hl) (by rw [h1]; exact hso) hrin
          (by rw [h1, hcont2]) hnd_in hdisj_in
      have h3 := step_returned (run n1 (step t)) a _ h2s
      have hdisj_af2 : ∀ b ∈ after.addrs,
          b ∉ ((inside.inline heap0 (d + 1)).deferred.map Prod.fst ++ q) := by
        intro b hb hmem
        rcases List.mem_append.mp hmem with hm | hm
        · obtain ⟨x, hx, rfl⟩ := List.mem_map.mp hm
          exact hdj (inline_deferred_addrs heap0 inside _ x hx) hb
        · exact hdisj_af b hb hm
      obtain ⟨n2, st2, h4c, h4d, h4l, h4so, h4s, h4log⟩ :=
        ih_af (inside.inline heap0 (d + 1)).depth
          ((inside.inline heap0 (d + 1)).deferred.map Prod.fst ++ q)
          (step (run n1 (step t))) st1 p rest below
          (by rw [h3]; exact h2c) h2d (by rw [h3]; exact h2l) (by rw [h3]; exact h2so) hraf
          (by rw [h3]) hnd_af hdisj_af2
      have hrun : run (1 + n1 + 1 + n2) t = run n2 (step (run n1 (step t))) := by
        rw [run_add (1 + n1 + 1) n2, run_succ (1 + n1), run_add 1 n1]
        rfl
      refine ⟨1 + n1 + 1 + n2, st2, ?_, ?_, ?_, ?_, ?_, ?_⟩
      · rw [hrun]; exact h4c
      · rw [h4d]; simp [Plan.inline, hlt]
      · rw [hrun]
        simpa [Plan.inline, hlt, List.append_assoc] using h4l
      · rw [hrun]; exact h4so
      · rw [hrun]; exact h4s
      · rw [hrun, h4log, h3]
        simp only
        rw [h2log, h1]
        simp [Plan.inline, hlt, hrecv, List.append_assoc]
    · have hge : ¬ st.__recursion_depth_ < (t.heap a).__max_recursion_depth_ := by
        rw [hd, hmax]; exact hlt
      have h1 := step_defer t st p a (after.roots ++ rest) below hs2 hc hge
      have hl1 : IsList (step t).heap (some a) (a :: q) := by
        rw [h1]
        refine ⟨rfl, ?_⟩
        simp only [Function.update_same]
        exact isList_update t.heap a _ q ha_q _ hl
      have hdisj_af2 : ∀ b ∈ after.addrs, b ∉ a :: q := by
        intro b hb hmem
        rcases List.mem_cons.mp hmem with hm | hm
        · exact ha_af (hm ▸ hb)
        · exact hdisj_af b hb hm
      obtain ⟨n2, st2, h4c, h4d, h4l, h4so, h4s, h4log⟩ :=
        ih_af d (a :: q) (step t) { st with __head_ := some a } p rest below
          (by rw [h1]) (by simp [hd]) hl1
          (by rw [h1]; exact sameOps_update heap0 t.heap hso a _) hraf
          (by rw [h1]) hnd_af hdisj_af2
      have hrun : run (1 + n2) t = run n2 (step t) := by
        rw [run_add 1 n2]
        rfl
      refine ⟨1 + n2, st2, ?_, ?_, ?_, ?_, ?_, ?_⟩
      · rw [hrun]; exact h4c
      · rw [h4d]; simp [Plan.inline, hlt]
      · rw [hrun]
        simpa [Plan.inline, hlt, List.append_assoc] using h4l
      · rw [hrun]; exact h4so
      · rw [hrun]; exact h4s
      · rw [hrun, h4log, h1]
        simp [Plan.inline, hlt, List.append_assoc]


theorem weight_append (q1 q2 : List (Nat × Plan)) :
    weight (q1 ++ q2) = weight q1 + weight q2 := by
  induction q1 with
  | nil => simp [weight]
  | cons x q ih =>
    obtain ⟨a, p⟩ := x
    have h : weight ((a, p) :: (q ++ q2)) = p.size + 1 + weight (q ++ q2) := rfl
    have h2 : weight ((a, p) :: q) = p.size + 1 + weight q := rfl
    rw [List.cons_append, h, h2, ih]
    omega

theorem pendingAddrs_append (q1 q2 : List (Nat × Plan)) :
    pendingAddrs (q1 ++ q2) = pendingAddrs q1 ++ pendingAddrs q2 := by
  induction q1 with
  | nil => simp [pendingAddrs]
  | cons x q ih =>
    obtain ⟨a, p⟩ := x
    simp [pendingAddrs, ih, List.append_assoc]

theorem executed_append (l1 l2 : List Event) :
    executed (l1 ++ l2) = executed l1 ++ executed l2 := by
  induction l1 with
  | nil => simp [executed]
  | cons e l ih =>
    cases e <;> simp [executed, ih]

theorem inline_weight (heap : Nat → __operation) (plan : Plan) :
    ∀ d, weight (plan.inline heap d).deferred ≤ plan.size := by
  induction plan with
  | done =>
    intro d
    simp [Plan.inline, weight]
  | op a inside after ih_in ih_af =>
    intro d
    unfold Plan.inline
    by_cases hlt : d < (heap a).__max_recursion_depth_
    · simp only [hlt, if_true, weight_append, Plan.size]
      have h1 := ih_in (d + 1)
      have h2 := ih_af (inside.inline heap (d + 1)).depth
      omega
    · simp only [hlt, if_false, weight_append, Plan.size, weight]
      have h2 := ih_af d
      omega

theorem inline_perm (heap : Nat → __operation) (plan : Plan) :
    ∀ d, (executed (plan.inline heap d).events ++ pendingAddrs (plan.inline heap d).deferred).Perm
      plan.addrs := by
  induction plan with
  | done =>
    intro d
    simp [Plan.inline, executed, pendingAddrs, Plan.addrs]
  | op a inside after ih_in ih_af =>
    intro d
    unfold Plan.inline
    by_cases hlt : d < (heap a).__max_recursion_depth_
    · simp only [hlt, if_true, executed, executed_append, pendingAddrs_append, Plan.addrs]
      rw [List.perm_iff_count]
      intro x
      have c1 := (ih_in (d + 1)).count_eq x
      have c2 := (ih_af (inside.inline heap (d + 1)).depth).count_eq x
      simp only [List.count_append, List.count_cons] at c1 c2 ⊢
      omega
    · simp only [hlt, if_false, executed, pendingAddrs_append, Plan.addrs, pendingAddrs]
      rw [List.perm_iff_count]
      intro x
      have c2 := (ih_af d).count_eq x
      simp only [List.count_append, List.count_cons, List.count_nil] at c2 ⊢
      omega

theorem inline_realized (heap : Nat → __operation) (plan : Plan) :
    ∀ d, plan.realized heap → ∀ x ∈ (plan.inline heap d).deferred,
      (heap x.1).continuation = x.2.roots ∧ x.2.realized heap := by
  induction plan with
  | done =>
    intro d _ x hx
    simp [Plan.inline] at hx
  | op a inside after ih_in ih_af =>
    intro d hr x hx
    obtain ⟨hcont, hrin, hraf⟩ := hr
    unfold Plan.inline at hx
    by_cases hlt : d < (heap a).__max_recursion_depth_
    · simp only [hlt, if_true, List.mem_append] at hx
      rcases hx with hx | hx
      · exact ih_af _ hraf x hx
      · exact ih_in _ hrin x hx
    · simp only [hlt, if_false, List.mem_append, List.mem_singleton] at hx
      rcases hx with hx | hx
      · exact ih_af _ hraf x hx
      · subst hx
        exact ⟨hcont, hrin⟩

theorem map_fst_subset_pendingAddrs (q : List (Nat × Plan)) :
    ∀ b ∈ q.map Prod.fst, b ∈ pendingAddrs q := by
  induction q with
  | nil => simp
  | cons x q ih =>
    obtain ⟨a, p⟩ := x
    intro b hb
    simp only [List.map_cons, List.mem_cons] at hb
    simp only [pendingAddrs, List.mem_cons, List.mem_append]
    rcases hb with hb | hb
    · exact Or.inl hb
    · exact Or.inr (Or.inr (ih b hb))

theorem weight_pos (x : Nat × Plan) (q : List (Nat × Plan)) : 1 ≤ weight (x :: q) := by
  obtain ⟨a, p⟩ := x
  simp only [weight]
  omega

theorem drain_sim (heap0 : Nat → __operation) :
    ∀ (fuel : Nat) (Q : List (Nat × Plan)) (t : Thread) (st : __trampoline_state)
      (below : List Frame),
      t.__current_ = some st → IsList t.heap st.__head_ (Q.map Prod.fst) →
      SameOps heap0 t.heap →
      (∀ x ∈ Q, (heap0 x.1).continuation = x.2.roots ∧ x.2.realized heap0) →
      (pendingAddrs Q).Nodup → weight Q ≤ fuel →
      t.stack = Frame.outermost :: below →
      ∃ n, (run n t).__current_ = none ∧ (run n t).stack = below ∧
        (run n t).log = t.log ++ drainEvents heap0 fuel Q := by
  intro fuel
  induction fuel with
  | zero =>
    intro Q t st below hc hl _ _ _ hw hs
    cases Q with
    | cons x q =>
      have := weight_pos x q
      omega
    | nil =>
      have h1 := step_exit t st below hs hc hl
      refine ⟨1, ?_, ?_, ?_⟩ <;> simp [run, h1, drainEvents]
  | succ fuel ih =>
    intro Q t st below hc hl hso hrl hnd hw hs
    cases Q with
    | nil =>
      have h1 := step_exit t st below hs hc hl
      refine ⟨1, ?_, ?_, ?_⟩ <;> simp [run, h1, drainEvents]
    | cons x q =>
      obtain ⟨a, p⟩ := x
      obtain ⟨hh, hl2⟩ := hl
      have h1 := step_pop t st a below hs hc hh
      obtain ⟨hcont, hrp⟩ := hrl (a, p) (List.mem_cons_self _ _)
      simp only [pendingAddrs, List.nodup_cons, List.nodup_append, List.mem_append, not_or] at hnd
      obtain ⟨⟨_, _⟩, hnd_p, hnd_q, hdj⟩ := hnd
      have hcont2 : (t.heap a).continuation = p.roots ++ [] := by
        rw [sameOps_continuation heap0 t.heap hso a, hcont, List.append_nil]
      have hrecv : (t.heap a).__receiver_ = (heap0 a).__receiver_ := (hso a).1
      obtain ⟨n1, st1, h2c, _, h2l, h2so, h2s, h2log⟩ :=
        inline_sim heap0 p 1 (q.map Prod.fst) (step t)
          { __recursion_depth_ := 1, __head_ := (t.heap a).__next_ } a []
          (Frame.outermost :: below) (by rw [h1]) rfl (by rw [h1]; exact hl2)
          (by rw [h1]; exact hso) hrp (by rw [h1, hcont2]) hnd_p
          (fun b hb hq => hdj hb (map_fst_subset_pendingAddrs q b hq))
      have h3 := step_returned (run n1 (step t)) a _ h2s
      have hperm := inline_perm heap0 p 1
      have hnd2 : (pendingAddrs ((p.inline heap0 1).deferred ++ q)).Nodup := by
        rw [pendingAddrs_append]
        have hnd3 : (executed (p.inline heap0 1).events ++
            pendingAddrs (p.inline heap0 1).deferred).Nodup := hperm.nodup_iff.mpr hnd_p
        refine List.Nodup.append (List.Nodup.of_append_right hnd3) hnd_q ?_
        intro b hb1 hb2
        exact hdj (hperm.subset (List.mem_append_right _ hb1)) hb2
      have hw2 : weight ((p.inline heap0 1).deferred ++ q) ≤ fuel := by
        rw [weight_append]
        have := inline_weight heap0 p 1
        simp only [weight] at hw
        omega
      have hrl2 : ∀ x ∈ (p.inline heap0 1).deferred ++ q,
          (heap0 x.1).continuation = x.2.roots ∧ x.2.realized heap0 := by
        intro x hx
        rcases List.mem_append.mp hx with hx | hx
        · exact inline_realized heap0 p 1 hrp x hx
        · exact hrl x (List.mem_cons_of_mem _ hx)
      obtain ⟨n2, h4c, h4s, h4log⟩ :=
        ih ((p.inline heap0 1).deferred ++ q) (step (run n1 (step t))) st1 below
          (by rw [h3]; exact h2c) (by rw [h3, List.map_append]; exact h2l)
          (by rw [h3]; exact h2so) hrl2 hnd2 hw2 (by rw [h3])
      have hrun : run (1 + n1 + 1 + n2) t = run n2 (step (run n1 (step t))) := by
        rw [run_add (1 + n1 + 1) n2, run_succ (1 + n1), run_add 1 n1]
        rfl
      refine ⟨1 + n1 + 1 + n2, ?_, ?_, ?_⟩
      · rw [hrun]; exact h4c
      · rw [hrun]; exact h4s
      · rw [hrun, h4log, h3]
        simp only
        rw [h2log, h1]
        simp [drainEvents, hrecv, List.append_assoc]

theorem begin_eq (heap : Nat → __operation) (root : Nat) :
    begin heap root =
      { __current_ := some { __recursion_depth_ := 1, __head_ := none }
        heap := heap
        stack := [Frame.callback root (heap root).continuation, Frame.outermost]
        log := [Event.start root,
          Event.execute root (__execute_impl (heap root).__receiver_)] } := by
  simp [begin, idle, start, __execute]

theorem sameOps_refl (heap : Nat → __operation) : SameOps heap heap :=
  fun _ => ⟨rfl, rfl⟩

theorem begin_sim (heap : Nat → __operation) (root : Nat) (inside : Plan)
    (hr : (Plan.op root inside Plan.done).realized heap)
    (hnd : (Plan.op root inside Plan.done).addrs.Nodup) :
    ∃ n, (run n (begin heap root)).__current_ = none ∧ (run n (begin heap root)).stack = [] ∧
      (run n (begin heap root)).log = outermostEvents heap root inside := by
  obtain ⟨hcont, hrin, _⟩ := hr
  simp only [Plan.addrs, List.append_nil, List.nodup_cons] at hnd
  obtain ⟨_, hnd_in⟩ := hnd
  have h0 := begin_eq heap root
  obtain ⟨n1, st1, h2c, _, h2l, h2so, h2s, h2log⟩ :=
    inline_sim heap inside 1 [] (begin heap root) { __recursion_depth_ := 1, __head_ := none }
      root [] [Frame.outermost] (by rw [h0]) rfl (by rw [h0]; rfl)
      (by rw [h0]; exact sameOps_refl heap) hrin (by rw [h0, hcont, List.append_nil]) hnd_in
      (fun _ _ h => by simp at h)
  have h3 := step_returned (run n1 (begin heap root)) root _ h2s
  have hperm := inline_perm heap inside 1
  have hnd2 : (pendingAddrs (inside.inline heap 1).deferred).Nodup :=
    List.Nodup.of_append_right (hperm.nodup_iff.mpr hnd_in)
  obtain ⟨n2, h4c, h4s, h4log⟩ :=
    drain_sim heap (weight (inside.inline heap 1).deferred) (inside.inline heap 1).deferred
      (step (run n1 (begin heap root))) st1 []
      (by rw [h3]; exact h2c) (by rw [h3]; simpa using h2l) (by rw [h3]; exact h2so)
      (inline_realized heap inside 1 hrin) hnd2 (Nat.le_refl _) (by rw [h3])
  have hrun : run (n1 + 1 + n2) (begin heap root)
      = run n2 (step (run n1 (begin heap root))) := by
    rw [run_add (n1 + 1) n2, run_succ n1]
  refine ⟨n1 + 1 + n2, ?_, ?_, ?_⟩
  · rw [hrun]; exact h4c
  · rw [hrun]; exact h4s
  · rw [hrun, h4log, h3]
    simp only
    rw [h2log, h0]
    simp [outermostEvents, List.append_assoc]


/-! ### What the log of a plan contains -/

theorem begun_append (l1 l2 : List Event) : begun (l1 ++ l2) = begun l1 ++ begun l2 := by
  induction l1 with
  | nil => simp [begun]
  | cons e l ih =>
    cases e <;> simp [begun, ih]

theorem drain_perm (heap : Nat → __operation) :
    ∀ (fuel : Nat) (Q : List (Nat × Plan)), weight Q ≤ fuel →
      (executed (drainEvents heap fuel Q)).Perm (pendingAddrs Q) := by
  intro fuel
  induction fuel with
  | zero =>
    intro Q hw
    cases Q with
    | nil => simp [drainEvents, executed, pendingAddrs]
    | cons x q =>
      have := weight_pos x q
      omega
  | succ fuel ih =>
    intro Q hw
    cases Q with
    | nil => simp [drainEvents, executed, pendingAddrs]
    | cons x q =>
      obtain ⟨a, p⟩ := x
      have hw2 : weight ((p.inline heap 1).deferred ++ q) ≤ fuel := by
        rw [weight_append]
        have := inline_weight heap p 1
        simp only [weight] at hw
        omega
      have h1 := ih _ hw2
      have h2 := inline_perm heap p 1
      simp only [drainEvents, executed, executed_append, pendingAddrs]
      rw [List.perm_iff_count]
      intro x
      have c1 := h1.count_eq x
      have c2 := h2.count_eq x
      simp only [List.count_append, List.count_cons, pendingAddrs_append] at c1 c2 ⊢
      omega

theorem outermost_executed_perm (heap : Nat → __operation) (root : Nat) (inside : Plan) :
    (executed (outermostEvents heap root inside)).Perm (Plan.op root inside Plan.done).addrs := by
  have h1 := drain_perm heap _ (inside.inline heap 1).deferred (Nat.le_refl _)
  have h2 := inline_perm heap inside 1
  simp only [outermostEvents, executed, executed_append, Plan.addrs, List.append_nil]
  rw [List.perm_iff_count]
  intro x
  have c1 := h1.count_eq x
  have c2 := h2.count_eq x
  simp only [List.count_append, List.count_cons] at c1 c2 ⊢
  omega

theorem pendingAddrs_perm (q : List (Nat × Plan)) :
    (pendingAddrs q).Perm (q.map Prod.fst ++ (q.map (fun x => x.2.addrs)).flatten) := by
  induction q with
  | nil => simp [pendingAddrs]
  | cons x q ih =>
    obtain ⟨a, p⟩ := x
    simp only [pendingAddrs, List.map_cons, List.flatten_cons, List.cons_append]
    rw [List.perm_iff_count]
    intro y
    have c := ih.count_eq y
    simp only [List.count_append, List.count_cons] at c ⊢
    omega

theorem inline_begun_perm (heap : Nat → __operation) (plan : Plan) :
    ∀ d, (begun (plan.inline heap d).events ++
        ((plan.inline heap d).deferred.map (fun x => x.2.addrs)).flatten).Perm plan.addrs := by
  induction plan with
  | done =>
    intro d
    simp [Plan.inline, begun, Plan.addrs]
  | op a inside after ih_in ih_af =>
    intro d
    unfold Plan.inline
    by_cases hlt : d < (heap a).__max_recursion_depth_
    · simp only [hlt, if_true, begun, begun_append, Plan.addrs, List.map_append,
        List.flatten_append]
      rw [List.perm_iff_count]
      intro x
      have c1 := (ih_in (d + 1)).count_eq x
      have c2 := (ih_af (inside.inline heap (d + 1)).depth).count_eq x
      simp only [List.count_append, List.count_cons] at c1 c2 ⊢
      omega
    · simp only [hlt, if_false, begun, Plan.addrs, List.map_append, List.flatten_append,
        List.map_cons, List.map_nil, List.flatten_cons, List.flatten_nil, List.append_nil]
      rw [List.perm_iff_count]
      intro x
      have c2 := (ih_af d).count_eq x
      simp only [List.count_append, List.count_cons] at c2 ⊢
      omega

theorem drain_begun_perm (heap : Nat → __operation) :
    ∀ (fuel : Nat) (Q : List (Nat × Plan)), weight Q ≤ fuel →
      (begun (drainEvents heap fuel Q)).Perm (Q.map (fun x => x.2.addrs)).flatten := by
  intro fuel
  induction fuel with
  | zero =>
    intro Q hw
    cases Q with
    | nil => simp [drainEvents, begun]
    | cons x q =>
      have := weight_pos x q
      omega
  | succ fuel ih =>
    intro Q hw
    cases Q with
    | nil => simp [drainEvents, begun]
    | cons x q =>
      obtain ⟨a, p⟩ := x
      have hw2 : weight ((p.inline heap 1).deferred ++ q) ≤ fuel := by
        rw [weight_append]
        have := inline_weight heap p 1
        simp only [weight] at hw
        omega
      have h1 := ih _ hw2
      have h2 := inline_begun_perm heap p 1
      simp only [drainEvents, begun, begun_append, List.map_cons, List.flatten_cons]
      rw [List.perm_iff_count]
      intro x
      have c1 := h1.count_eq x
      have c2 := h2.count_eq x
      simp only [List.count_append, List.map_append, List.flatten_append] at c1 c2 ⊢
      omega

theorem outermost_begun_perm (heap : Nat → __operation) (root : Nat) (inside : Plan) :
    (begun (outermostEvents heap root inside)).Perm (Plan.op root inside Plan.done).addrs := by
  have h1 := drain_begun_perm heap _ (inside.inline heap 1).deferred (Nat.le_refl _)
  have h2 := inline_begun_perm heap inside 1
  simp only [outermostEvents, begun, begun_append, Plan.addrs, List.append_nil]
  rw [List.perm_iff_count]
  intro x
  have c1 := h1.count_eq x
  have c2 := h2.count_eq x
  simp only [List.count_append, List.count_cons] at c1 c2 ⊢
  omega

/-! ### The log follows a stack discipline -/

theorem lifo_append (l1 l2 : List Event) :
    ∀ S, lifo S (l1 ++ l2) = (lifo S l1).bind (fun S1 => lifo S1 l2) := by
  induction l1 with
  | nil =>
    intro S
    simp [lifo]
  | cons e l ih =>
    intro S
    cases e with
    | pop a =>
      cases S with
      | nil => simp [lifo]
      | cons b S =>
        by_cases hab : a = b
        · simp [lifo, hab, ih]
        · simp [lifo, hab]
    | start a => simp [lifo, ih]
    | execute a c => simp [lifo, ih]
    | returned a => simp [lifo, ih]
    | defer a => simp [lifo, ih]

theorem lifo_inline (heap : Nat → __operation) (plan : Plan) :
    ∀ d S, lifo S (plan.inline heap d).events
      = some ((plan.inline heap d).deferred.map Prod.fst ++ S) := by
  induction plan with
  | done =>
    intro d S
    simp [Plan.inline, lifo]
  | op a inside after ih_in ih_af =>
    intro d S
    unfold Plan.inline
    by_cases hlt : d < (heap a).__max_recursion_depth_
    · simp [hlt, lifo, lifo_append, ih_in, ih_af]
    · simp [hlt, lifo, ih_af]

theorem lifo_drain (heap : Nat → __operation) :
    ∀ (fuel : Nat) (Q : List (Nat × Plan)) (S : List Nat), weight Q ≤ fuel →
      lifo (Q.map Prod.fst ++ S) (drainEvents heap fuel Q) = some S := by
  intro fuel
  induction fuel with
  | zero =>
    intro Q S hw
    cases Q with
    | nil => simp [drainEvents, lifo]
    | cons x q =>
      have := weight_pos x q
      omega
  | succ fuel ih =>
    intro Q S hw
    cases Q with
    | nil => simp [drainEvents, lifo]
    | cons x q =>
      obtain ⟨a, p⟩ := x
      have hw2 : weight ((p.inline heap 1).deferred ++ q) ≤ fuel := by
        rw [weight_append]
        have := inline_weight heap p 1
        simp only [weight] at hw
        omega
      have h1 := ih _ S hw2
      simp only [List.map_append, List.append_assoc] at h1
      simp [drainEvents, lifo, lifo_append, lifo_inline, h1]

theorem lifo_outermost (heap : Nat → __operation) (root : Nat) (inside : Plan) :
    lifo [] (outermostEvents heap root inside) = some [] := by
  have h1 := lifo_drain heap _ (inside.inline heap 1).deferred [] (Nat.le_refl _)
  simp only [List.append_nil] at h1
  simp [outermostEvents, lifo, lifo_append, lifo_inline, h1]

theorem popsRun_append (l1 l2 : List Event) (h : ∀ a, Event.pop a ∉ l1) :
    popsRun (l1 ++ l2) = popsRun l2 := by
  induction l1 with
  | nil => rfl
  | cons e l ih =>
    have hl : ∀ a, Event.pop a ∉ l := fun a ha => h a (List.mem_cons_of_mem _ ha)
    cases e with
    | pop a => exact absurd (List.mem_cons_self _ _) (h a)
    | start a => simpa [popsRun] using ih hl
    | execute a c => simpa [popsRun] using ih hl
    | returned a => simpa [popsRun] using ih hl
    | defer a => simpa [popsRun] using ih hl

theorem inline_no_pop (heap : Nat → __operation) (plan : Plan) :
    ∀ d a, Event.pop a ∉ (plan.inline heap d).events := by
  induction plan with
  | done =>
    intro d a
    simp [Plan.inline]
  | op b inside after ih_in ih_af =>
    intro d a
    unfold Plan.inline
    by_cases hlt : d < (heap b).__max_recursion_depth_
    · simp [hlt, ih_in, ih_af]
    · simp [hlt, ih_af]

theorem popsRun_drain (heap : Nat → __operation) :
    ∀ (fuel : Nat) (Q : List (Nat × Plan)), popsRun (drainEvents heap fuel Q) = true := by
  intro fuel
  induction fuel with
  | zero =>
    intro Q
    rfl
  | succ fuel ih =>
    intro Q
    cases Q with
    | nil => rfl
    | cons x q =>
      obtain ⟨a, p⟩ := x
      have h1 := popsRun_append (p.inline heap 1).events
        (Event.returned a :: drainEvents heap fuel ((p.inline heap 1).deferred ++ q))
        (inline_no_pop heap p 1)
      simp only [drainEvents, popsRun, decide_True, Bool.true_and]
      rw [h1]
      simpa [popsRun] using ih _

theorem popsRun_outermost (heap : Nat → __operation) (root : Nat) (inside : Plan) :
    popsRun (outermostEvents heap root inside) = true := by
  have h1 := popsRun_append (inside.inline heap 1).events
    (Event.returned root ::
      drainEvents heap (weight (inside.inline heap 1).deferred) (inside.inline heap 1).deferred)
    (inline_no_pop heap inside 1)
  simp only [outermostEvents, popsRun]
  rw [h1]
  simpa [popsRun] using popsRun_drain heap _ _

theorem lifo_pendingFrom (l : List Event) :
    ∀ S S2, lifo S l = some S2 → pendingFrom S l = S2 := by
  induction l with
  | nil =>
    intro S S2 h
    simpa [lifo, pendingFrom] using h
  | cons e l ih =>
    intro S S2 h
    cases e with
    | pop a =>
      cases S with
      | nil => simp [lifo] at h
      | cons b S =>
        by_cases hab : a = b
        · subst hab
          simp only [lifo, if_true] at h
          simpa [pendingFrom] using ih _ _ h
        · simp [lifo, hab] at h
    | start a => exact ih _ _ (by simpa [lifo] using h)
    | execute a c => exact ih _ _ (by simpa [lifo] using h)
    | returned a => exact ih _ _ (by simpa [lifo] using h)
    | defer a => exact ih _ _ (by simpa [lifo] using h)

theorem lifo_split (l1 l2 : List Event) (S S2 : List Nat) (h : lifo S (l1 ++ l2) = some S2) :
    ∃ S1, lifo S l1 = some S1 ∧ lifo S1 l2 = some S2 := by
  rw [lifo_append] at h
  cases h1 : lifo S l1 with
  | none => simp [h1] at h
  | some S1 =>
    refine ⟨S1, rfl, ?_⟩
    simpa [h1] using h

theorem lifo_pop_of_mem (l : List Event) :
    ∀ S Z, lifo S l = some [] → Z ∈ S → ∃ m2 m3, l = m2 ++ Event.pop Z :: m3 := by
  induction l with
  | nil =>
    intro S Z h hZ
    simp only [lifo, Option.some.injEq] at h
    subst h
    simp at hZ
  | cons e l ih =>
    intro S Z h hZ
    cases e with
    | pop a =>
      cases S with
      | nil => simp [lifo] at h
      | cons b S =>
        by_cases hab : a = b
        · subst hab
          simp only [lifo, if_true] at h
          rcases List.mem_cons.mp hZ with hZ | hZ
          · subst hZ
            exact ⟨[], l, rfl⟩
          · obtain ⟨m2, m3, hm⟩ := ih S Z h hZ
            exact ⟨Event.pop a :: m2, m3, by rw [hm]; rfl⟩
        · simp [lifo, hab] at h
    | start a =>
      obtain ⟨m2, m3, hm⟩ := ih S Z (by simpa [lifo] using h) hZ
      exact ⟨Event.start a :: m2, m3, by rw [hm]; rfl⟩
    | execute a c =>
      obtain ⟨m2, m3, hm⟩ := ih S Z (by simpa [lifo] using h) hZ
      exact ⟨Event.execute a c :: m2, m3, by rw [hm]; rfl⟩
    | returned a =>
      obtain ⟨m2, m3, hm⟩ := ih S Z (by simpa [lifo] using h) hZ
      exact ⟨Event.returned a :: m2, m3, by rw [hm]; rfl⟩
    | defer a =>
      obtain ⟨m2, m3, hm⟩ := ih (a :: S) Z (by simpa [lifo] using h)
        (List.mem_cons_of_mem _ hZ)
      exact ⟨Event.defer a :: m2, m3, by rw [hm]; rfl⟩

theorem lifo_pop_order (l : List Event) :
    ∀ Sa Y Sb Z, lifo (Sa ++ Y :: Sb) l = some [] → Z ∈ Sb →
      ∃ m1 m2 m3, l = m1 ++ Event.pop Y :: (m2 ++ Event.pop Z :: m3) := by
  induction l with
  | nil =>
    intro Sa Y Sb Z h _
    simp [lifo] at h
  | cons e l ih =>
    intro Sa Y Sb Z h hZ
    cases e with
    | pop a =>
      cases Sa with
      | nil =>
        by_cases hab : a = Y
        · subst hab
          simp only [List.nil_append, lifo, if_true] at h
          obtain ⟨m2, m3, hm⟩ := lifo_pop_of_mem l Sb Z h hZ
          exact ⟨[], m2, m3, by rw [hm]; rfl⟩
        · simp [lifo, hab] at h
      | cons b Sa =>
        by_cases hab : a = b
        · subst hab
          simp only [List.cons_append, lifo, if_true] at h
          obtain ⟨m1, m2, m3, hm⟩ := ih Sa Y Sb Z h hZ
          exact ⟨Event.pop a :: m1, m2, m3, by rw [hm]; rfl⟩
        · simp [lifo, hab] at h
    | start a =>
      obtain ⟨m1, m2, m3, hm⟩ := ih Sa Y Sb Z (by simpa [lifo] using h) hZ
      exact ⟨Event.start a :: m1, m2, m3, by rw [hm]; rfl⟩
    | execute a c =>
      obtain ⟨m1, m2, m3, hm⟩ := ih Sa Y Sb Z (by simpa [lifo] using h) hZ
      exact ⟨Event.execute a c :: m1, m2, m3, by rw [hm]; rfl⟩
    | returned a =>
      obtain ⟨m1, m2, m3, hm⟩ := ih Sa Y Sb Z (by simpa [lifo] using h) hZ
      exact ⟨Event.returned a :: m1, m2, m3, by rw [hm]; rfl⟩
    | defer a =>
      obtain ⟨m1, m2, m3, hm⟩ := ih (a :: Sa) Y Sb Z (by simpa [lifo] using h) hZ
      exact ⟨Event.defer a :: m1, m2, m3, by rw [hm]; rfl⟩

theorem popsRun_spec (pre : List Event) :
    ∀ (a : Nat) (post : List Event), popsRun (pre ++ Event.pop a :: post) = true →
      ∃ c post2, post = Event.execute a c :: post2 := by
  induction pre with
  | nil =>
    intro a post h
    simp only [List.nil_append, popsRun, Bool.and_eq_true] at h
    obtain ⟨h1, _⟩ := h
    cases post with
    | nil => simp at h1
    | cons e post =>
      cases e with
      | execute b c =>
        simp only [decide_eq_true_eq] at h1
        subst h1
        exact ⟨c, post, rfl⟩
      | start b => simp at h1
      | returned b => simp at h1
      | defer b => simp at h1
      | pop b => simp at h1
  | cons e pre ih =>
    intro a post h
    cases e with
    | pop b =>
      simp only [List.cons_append, popsRun, Bool.and_eq_true] at h
      exact ih a post h.2
    | start b => exact ih a post (by simpa [popsRun] using h)
    | execute b c => exact ih a post (by simpa [popsRun] using h)
    | returned b => exact ih a post (by simpa [popsRun] using h)
    | defer b => exact ih a post (by simpa [popsRun] using h)

theorem mem_executed (l : List Event) (a : Nat) (c : List Call)
    (h : Event.execute a c ∈ l) : a ∈ executed l := by
  induction l with
  | nil => simp at h
  | cons e l ih =>
    rcases List.mem_cons.mp h with h1 | h1
    · subst h1
      simp [executed]
    · have h2 := ih h1
      cases e <;> simp [executed, h2]

theorem pendingFrom_mem_of_no_pop (l : List Event) (h : ∀ x, Event.pop x ∉ l) :
    ∀ S a, a ∈ S → a ∈ pendingFrom S l := by
  induction l with
  | nil =>
    intro S a ha
    simpa [pendingFrom] using ha
  | cons e l ih =>
    have hl : ∀ x, Event.pop x ∉ l := fun x hx => h x (List.mem_cons_of_mem _ hx)
    intro S a ha
    cases e with
    | pop b => exact absurd (List.mem_cons_self _ _) (h b)
    | start b => exact ih hl S a ha
    | execute b c => exact ih hl S a ha
    | returned b => exact ih hl S a ha
    | defer b => exact ih hl (b :: S) a (List.mem_cons_of_mem _ ha)

theorem pendingFrom_append (l1 l2 : List Event) :
    ∀ S, pendingFrom S (l1 ++ l2) = pendingFrom (pendingFrom S l1) l2 := by
  induction l1 with
  | nil =>
    intro S
    rfl
  | cons e l ih =>
    intro S
    cases e <;> simp [pendingFrom, ih]

/-- In a log that follows the stack discipline and ends with nothing pending, an operation that
is deferred executes before every operation that is pending when it is deferred. -/
theorem lifo_order (log : List Event) (h1 : lifo [] log = some []) (h2 : popsRun log = true)
    (l1 l3 : List Event) (Y Z : Nat) (hlog : log = l1 ++ Event.defer Y :: l3)
    (hZ : Z ∈ pending l1) :
    ∃ m1 cY m2 cZ m3, l3 = m1 ++ Event.execute Y cY :: (m2 ++ Event.execute Z cZ :: m3) := by
  subst hlog
  obtain ⟨S1, hS1, hrest⟩ := lifo_split l1 _ [] [] h1
  have hp : pending l1 = S1 := lifo_pendingFrom l1 [] S1 hS1
  rw [hp] at hZ
  have hrest2 : lifo ([] ++ Y :: S1) l3 = some [] := by simpa [lifo] using hrest
  obtain ⟨m1, m2, m3, hm⟩ := lifo_pop_order l3 [] Y S1 Z hrest2 hZ
  subst hm
  have e1 : l1 ++ Event.defer Y :: (m1 ++ Event.pop Y :: (m2 ++ Event.pop Z :: m3))
      = (l1 ++ Event.defer Y :: m1) ++ Event.pop Y :: (m2 ++ Event.pop Z :: m3) := by
    simp [List.append_assoc]
  have e2 : l1 ++ Event.defer Y :: (m1 ++ Event.pop Y :: (m2 ++ Event.pop Z :: m3))
      = (l1 ++ Event.defer Y :: (m1 ++ Event.pop Y :: m2)) ++ Event.pop Z :: m3 := by
    simp [List.append_assoc]
  obtain ⟨cY, post, hpost⟩ := popsRun_spec _ Y _ (e1 ▸ h2)
  obtain ⟨cZ, post2, hpost2⟩ := popsRun_spec _ Z _ (e2 ▸ h2)
  subst hpost2
  cases m2 with
  | nil => simp at hpost
  | cons e m2 =>
    simp only [List.cons_append, List.cons.injEq] at hpost
    obtain ⟨he, _⟩ := hpost
    subst he
    refine ⟨m1 ++ [Event.pop Y], cY, m2 ++ [Event.pop Z], cZ, post2, ?_⟩
    simp [List.append_assoc]

/-! ### The shape of the stack -/

theorem step_idle (t : Thread) (h : t.stack = []) : step t = t := by
  simp [step, h]

theorem run_idle (n : Nat) (t : Thread) (h : t.stack = []) : run n t = t := by
  induction n with
  | zero => rfl
  | succ k ih =>
    rw [run_succ, ih]
    exact step_idle t h

theorem run_final_le (t : Thread) (m n : Nat) (hmn : m ≤ n) (hm : (run m t).stack = []) :
    run n t = run m t := by
  obtain ⟨k, rfl⟩ := Nat.exists_eq_add_of_le hmn
  rw [run_add]
  exact run_idle k _ hm

theorem run_final_unique (t : Thread) (m n : Nat) (hm : (run m t).stack = [])
    (hn : (run n t).stack = []) : run m t = run n t := by
  rcases Nat.le_total m n with h | h
  · exact (run_final_le t m n h hm).symm
  · exact run_final_le t n m h hn

theorem shape_begin (heap : Nat → __operation) (root : Nat) : Shape (begin heap root) := by
  rw [begin_eq]
  refine Or.inr ⟨_, [Frame.callback root (heap root).continuation], rfl, rfl, ?_⟩
  intro f hf
  simp only [List.mem_singleton] at hf
  subst hf
  simp

theorem shape_step (t : Thread) (h : Shape t) : Shape (step t) := by
  rcases h with ⟨hs, hc⟩ | ⟨st, cbs, hc, hs, hcb⟩
  · rw [step_idle t hs]
    exact Or.inl ⟨hs, hc⟩
  · cases cbs with
    | nil =>
      simp only [List.nil_append] at hs
      cases hh : st.__head_ with
      | none =>
        rw [step_exit t st [] hs hc hh]
        exact Or.inl ⟨rfl, rfl⟩
      | some op =>
        rw [step_pop t st op [] hs hc hh]
        refine Or.inr ⟨_, [Frame.callback op (t.heap op).continuation], rfl, rfl, ?_⟩
        intro f hf
        simp only [List.mem_singleton] at hf
        subst hf
        simp
    | cons f fs =>
      have hf : f ≠ Frame.outermost := hcb f (List.mem_cons_self _ _)
      have hfs : ∀ g ∈ fs, g ≠ Frame.outermost := fun g hg => hcb g (List.mem_cons_of_mem _ hg)
      cases f with
      | outermost => exact absurd rfl hf
      | callback op pending =>
        simp only [List.cons_append] at hs
        cases pending with
        | nil =>
          rw [step_returned t op _ hs]
          exact Or.inr ⟨st, fs, hc, rfl, hfs⟩
        | cons a rest =>
          by_cases hd : st.__recursion_depth_ < (t.heap a).__max_recursion_depth_
          · rw [step_inline t st op a rest _ hs hc hd]
            refine Or.inr ⟨_, Frame.callback a (t.heap a).continuation ::
              Frame.callback op rest :: fs, rfl, rfl, ?_⟩
            intro g hg
            simp only [List.mem_cons] at hg
            rcases hg with rfl | rfl | hg
            · simp
            · simp
            · exact hfs g hg
          · rw [step_defer t st op a rest _ hs hc hd]
            refine Or.inr ⟨_, Frame.callback op rest :: fs, rfl, rfl, ?_⟩
            intro g hg
            simp only [List.mem_cons] at hg
            rcases hg with rfl | hg
            · simp
            · exact hfs g hg

theorem shape_run (n : Nat) (t : Thread) (h : Shape t) : Shape (run n t) := by
  induction n with
  | zero => exact h
  | succ k ih =>
    rw [run_succ]
    exact shape_step _ ih

theorem shape_return (t : Thread) (h : Shape t) (hne : t.stack ≠ [])
    (hret : (step t).stack = []) : ∃ st, t.__current_ = some st ∧ st.__head_ = none := by
  rcases h with ⟨hs, _⟩ | ⟨st, cbs, hc, hs, hcb⟩
  · exact absurd hs hne
  · cases cbs with
    | nil =>
      simp only [List.nil_append] at hs
      cases hh : st.__head_ with
      | none => exact ⟨st, hc, hh⟩
      | some op =>
        rw [step_pop t st op [] hs hc hh] at hret
        simp at hret
    | cons f fs =>
      have hf : f ≠ Frame.outermost := hcb f (List.mem_cons_self _ _)
      cases f with
      | outermost => exact absurd rfl hf
      | callback op pending =>
        simp only [List.cons_append] at hs
        cases pending with
        | nil =>
          rw [step_returned t op _ hs] at hret
          simp at hret
        | cons a rest =>
          by_cases hd : st.__recursion_depth_ < (t.heap a).__max_recursion_depth_
          · rw [step_inline t st op a rest _ hs hc hd] at hret
            simp at hret
          · rw [step_defer t st op a rest _ hs hc hd] at hret
            simp at hret

/-! ### The stop-token query -/

theorem get_stop_token_viable (env : Env) :
    get_stop_token_t.operators.filterMap (fun o => o.invoke env)
      = [StopToken.never_stop_token] := by
  simp [get_stop_token_t.operators, CallOperator.invoke]

theorem get_stop_token_eq (env : Env) : get_stop_token env = StopToken.never_stop_token := by
  simp [get_stop_token, get_stop_token_viable]

theorem execute_may_block_caller_viable (s : __scheduler) :
    execute_may_block_caller_t.operators.filterMap (fun o => o.invoke s) = [true] := by
  simp [execute_may_block_caller_t.operators, QueryOperator.invoke]

/-! ### Chains -/

theorem ops_continuation (L : Nat) (env : Option Env) (begins : Nat → List Nat) (a : Nat) :
    (ops L env begins a).continuation = begins a := by
  unfold __operation.continuation ops __execute_impl
  split_ifs <;> simp [Receiver.begins]

theorem chainPlan_roots (k a : Nat) :
    (chainPlan k a).roots = if k = 0 then [] else [a] := by
  cases k <;> simp [chainPlan, Plan.roots]

theorem chainPlan_addrs (k : Nat) : ∀ a, (chainPlan k a).addrs = List.range' a k := by
  induction k with
  | zero =>
    intro a
    simp [chainPlan, Plan.addrs]
  | succ k ih =>
    intro a
    simp [chainPlan, Plan.addrs, ih, List.range'_succ]

theorem chainPlan_size (k : Nat) : ∀ a, (chainPlan k a).size = k := by
  induction k with
  | zero =>
    intro a
    simp [chainPlan, Plan.size]
  | succ k ih =>
    intro a
    simp [chainPlan, Plan.size, ih]

theorem chainPlan_realized (N L : Nat) (env : Option Env) (k : Nat) :
    ∀ a, a + k = N → (chainPlan k a).realized (chain N L env) := by
  induction k with
  | zero =>
    intro a _
    simp [chainPlan, Plan.realized]
  | succ k ih =>
    intro a ha
    refine ⟨?_, ih (a + 1) (by omega), trivial⟩
    unfold chain
    rw [ops_continuation, chainPlan_roots]
    by_cases hk : k = 0
    · have : ¬ a + 1 < N := by omega
      simp [hk, this]
    · have : a + 1 < N := by omega
      simp [hk, this]

/-- What beginning a chain inside a callback amounts to: `min k (L - d)` operations run nested
inside one another, and the next one, when there is one, is deferred. -/
theorem chain_inline (N L : Nat) (env : Option Env) (k : Nat) :
    ∀ a d,
      ((chainPlan k a).inline (chain N L env) d).events
          = descend (chain N L env) a (min k (L - d)) ++
            ((if min k (L - d) < k then
                [Event.start (a + min k (L - d)), Event.defer (a + min k (L - d))]
              else []) ++ ascend a (min k (L - d))) ∧
        ((chainPlan k a).inline (chain N L env) d).deferred
          = if min k (L - d) < k then
              [(a + min k (L - d), chainPlan (k - min k (L - d) - 1) (a + min k (L - d) + 1))]
            else [] := by
  induction k with
  | zero =>
    intro a d
    simp [chainPlan, Plan.inline, descend, ascend]
  | succ k ih =>
    intro a d
    have hlim : ((chain N L env) a).__max_recursion_depth_ = L := rfl
    by_cases hlt : d < L
    · obtain ⟨h1, h2⟩ := ih (a + 1) (d + 1)
      have hj : min (k + 1) (L - d) = min k (L - (d + 1)) + 1 := by omega
      have hc : (min k (L - (d + 1)) + 1 < k + 1) = (min k (L - (d + 1)) < k) := by
        simp
      have ha : a + (min k (L - (d + 1)) + 1) = a + 1 + min k (L - (d + 1)) := by omega
      have hk : k + 1 - (min k (L - (d + 1)) + 1) - 1 = k - min k (L - (d + 1)) - 1 := by
        omega
      constructor
      · simp only [chainPlan, Plan.inline, hlim, hlt, if_true, h1, hj, hc, ha, descend, ascend,
          List.cons_append, List.append_assoc, List.nil_append]
      · simp only [chainPlan, Plan.inline, hlim, hlt, if_true, h2, hj, hc, ha, hk,
          List.nil_append]
    · have hj : min (k + 1) (L - d) = 0 := by omega
      constructor
      · simp [chainPlan, Plan.inline, hlim, hlt, hj, descend, ascend]
      · simp [chainPlan, Plan.inline, hlim, hlt, hj]

theorem executed_descend (heap : Nat → __operation) (j : Nat) :
    ∀ a, executed (descend heap a j) = List.range' a j := by
  induction j with
  | zero =>
    intro a
    simp [descend, executed]
  | succ j ih =>
    intro a
    simp [descend, executed, ih, List.range'_succ]

theorem executed_ascend (j : Nat) : ∀ a, executed (ascend a j) = [] := by
  induction j with
  | zero =>
    intro a
    simp [ascend, executed]
  | succ j ih =>
    intro a
    simp [ascend, executed_append, executed, ih]

theorem chain_inline_executed (N L : Nat) (env : Option Env) (k a d : Nat) :
    executed ((chainPlan k a).inline (chain N L env) d).events
      = List.range' a (min k (L - d)) := by
  rw [(chain_inline N L env k a d).1]
  by_cases h : min k (L - d) < k
  · simp [h, executed_append, executed_descend, executed_ascend, executed]
  · simp [h, executed_append, executed_descend, executed_ascend, executed]

theorem drainEvents_nil (heap : Nat → __operation) (fuel : Nat) :
    drainEvents heap fuel [] = [] := by
  cases fuel <;> rfl

/-- The drain loop executes a deferred chain in order. -/
theorem chain_drain_executed (N L : Nat) (env : Option Env) (fuel : Nat) :
    ∀ k a, k + 1 ≤ fuel →
      executed (drainEvents (chain N L env) fuel [(a, chainPlan k (a + 1))])
        = List.range' a (k + 1) := by
  induction fuel with
  | zero =>
    intro k a h
    omega
  | succ fuel ih =>
    intro k a h
    have h2 := (chain_inline N L env k (a + 1) 1).2
    have h3 := chain_inline_executed N L env k (a + 1) 1
    simp only [drainEvents, executed, executed_append, h3, List.append_nil]
    rw [h2]
    by_cases hj : min k (L - 1) < k
    · simp only [hj, if_true]
      have hk : k - min k (L - 1) - 1 + 1 ≤ fuel := by omega
      rw [ih (k - min k (L - 1) - 1) (a + 1 + min k (L - 1)) hk]
      have e1 : k - min k (L - 1) - 1 + 1 = k - min k (L - 1) := by omega
      rw [e1, List.range'_append_1, List.range'_succ]
      have e2 : k - min k (L - 1) + min k (L - 1) = k := by omega
      rw [e2]
    · simp only [hj, if_false, drainEvents_nil, executed, List.append_nil]
      have e : min k (L - 1) = k := by omega
      rw [e, List.range'_succ]

theorem nestingFrom_descend (heap : Nat → __operation) (j : Nat) :
    ∀ a cur mx rest, cur ≤ mx → nestingFrom cur mx (descend heap a j ++ rest)
      = nestingFrom (cur + j) (max mx (cur + j)) rest := by
  induction j with
  | zero =>
    intro a cur mx rest h
    have e : max mx (cur + 0) = mx := by omega
    rw [e]
    rfl
  | succ j ih =>
    intro a cur mx rest h
    have e0 : descend heap a (j + 1) ++ rest
        = Event.start a :: Event.execute a (__execute_impl (heap a).__receiver_) ::
          (descend heap (a + 1) j ++ rest) := rfl
    rw [e0]
    simp only [nestingFrom]
    rw [ih (a + 1) (cur + 1) (max mx (cur + 1)) rest (by omega)]
    have e1 : cur + 1 + j = cur + (j + 1) := by omega
    have e2 : max (max mx (cur + 1)) (cur + 1 + j) = max mx (cur + (j + 1)) := by omega
    rw [e2, e1]

theorem nestingFrom_ascend (j : Nat) :
    ∀ a cur mx rest, nestingFrom cur mx (ascend a j ++ rest) = nestingFrom (cur - j) mx rest := by
  induction j with
  | zero =>
    intro a cur mx rest
    simp [ascend]
  | succ j ih =>
    intro a cur mx rest
    simp only [ascend, List.append_assoc, List.singleton_append]
    rw [ih]
    simp only [nestingFrom]
    have e : cur - j - 1 = cur - (j + 1) := by omega
    rw [e]

theorem beforeFirstDefer_descend (heap : Nat → __operation) (j : Nat) :
    ∀ a rest, beforeFirstDefer (descend heap a j ++ rest)
      = descend heap a j ++ beforeFirstDefer rest := by
  induction j with
  | zero =>
    intro a rest
    simp [descend]
  | succ j ih =>
    intro a rest
    simp [descend, beforeFirstDefer, ih]

theorem beforeFirstDefer_ascend (j : Nat) :
    ∀ a rest, beforeFirstDefer (ascend a j ++ rest) = ascend a j ++ beforeFirstDefer rest := by
  induction j with
  | zero =>
    intro a rest
    simp [ascend]
  | succ j ih =>
    intro a rest
    simp [ascend, ih, beforeFirstDefer]

theorem viaDrain_no_pop (l1 l2 : List Event) (h : ∀ a, Event.pop a ∉ l1) :
    viaDrain (l1 ++ l2) = viaDrain l2 := by
  induction l1 with
  | nil => rfl
  | cons e l ih =>
    have hl : ∀ a, Event.pop a ∉ l := fun a ha => h a (List.mem_cons_of_mem _ ha)
    cases e with
    | pop a => exact absurd (List.mem_cons_self _ _) (h a)
    | start a => simpa [viaDrain] using ih hl
    | execute a c => simpa [viaDrain] using ih hl
    | returned a => simpa [viaDrain] using ih hl
    | defer a => simpa [viaDrain] using ih hl

theorem chain_claim (M L : Nat) (env : Option Env) (hL : 1 ≤ L) :
    ChainClaim (M + 1) L (outermostEvents (chain (M + 1) L env) 0 (chainPlan M 1)) := by
  obtain ⟨hev, hdef⟩ := chain_inline (M + 1) L env M 1 1
  have hex := chain_inline_executed (M + 1) L env M 1 1
  have hnp := inline_no_pop (chain (M + 1) L env) (chainPlan M 1) 1
  have hd0 : ∀ rest, Event.start 0 ::
      Event.execute 0 (__execute_impl ((chain (M + 1) L env) 0).__receiver_) ::
        (descend (chain (M + 1) L env) 1 (min M (L - 1)) ++ rest)
      = descend (chain (M + 1) L env) 0 (min M (L - 1) + 1) ++ rest := fun _ => rfl
  by_cases hj : min M (L - 1) < M
  · have hjL : min M (L - 1) = L - 1 := by omega
    simp only [hj, if_true] at hev hdef
    have hw : weight ((chainPlan M 1).inline (chain (M + 1) L env) 1).deferred
        = M - min M (L - 1) - 1 + 1 := by
      rw [hdef]
      simp [weight, chainPlan_size]
    have hdr := chain_drain_executed (M + 1) L env (M - min M (L - 1) - 1 + 1)
      (M - min M (L - 1) - 1) (1 + min M (L - 1)) (Nat.le_refl _)
    refine ⟨?_, ?_, ?_⟩
    · unfold outermostEvents
      rw [hev, List.append_assoc, hd0, beforeFirstDefer_descend]
      simp only [List.cons_append, List.nil_append, beforeFirstDefer]
      unfold maxNesting
      rw [nestingFrom_descend _ _ _ _ _ _ (Nat.le_refl _)]
      simp only [nestingFrom]
      omega
    · unfold outermostEvents
      have e : Event.start 0 ::
          Event.execute 0 (__execute_impl ((chain (M + 1) L env) 0).__receiver_) ::
            (((chainPlan M 1).inline (chain (M + 1) L env) 1).events ++
              Event.returned 0 ::
                drainEvents (chain (M + 1) L env)
                  (weight ((chainPlan M 1).inline (chain (M + 1) L env) 1).deferred)
                  ((chainPlan M 1).inline (chain (M + 1) L env) 1).deferred)
          = (Event.start 0 ::
              Event.execute 0 (__execute_impl ((chain (M + 1) L env) 0).__receiver_) ::
                (((chainPlan M 1).inline (chain (M + 1) L env) 1).events ++
                  [Event.returned 0])) ++
              drainEvents (chain (M + 1) L env)
                (weight ((chainPlan M 1).inline (chain (M + 1) L env) 1).deferred)
                ((chainPlan M 1).inline (chain (M + 1) L env) 1).deferred := by
        simp [List.append_assoc]
      rw [e, viaDrain_no_pop]
      · rw [hw, hdef]
        have hv : ∀ l, viaDrain (drainEvents (chain (M + 1) L env) (M - min M (L - 1) - 1 + 1)
            [(1 + min M (L - 1), chainPlan (M - min M (L - 1) - 1) (1 + min M (L - 1) + 1))]) = l
            → executed l = List.range' L (M + 1 - L) := by
          intro l hl
          rw [← hl]
          simp only [drainEvents, viaDrain]
          have h3 := hdr
          simp only [drainEvents] at h3
          rw [h3]
          have e1 : 1 + min M (L - 1) = L := by omega
          have e2 : M - min M (L - 1) - 1 + 1 = M + 1 - L := by omega
          rw [e1, e2]
        exact hv _ rfl
      · intro a ha
        simp only [List.mem_cons, List.mem_append, List.mem_singleton, List.not_mem_nil,
          or_false] at ha
        rcases ha with ha | ha | ha | ha
        · cases ha
        · cases ha
        · exact hnp a ha
        · cases ha
    · unfold outermostEvents
      simp only [executed, executed_append, hex]
      rw [hw, hdef, hdr]
      have e1 : M - min M (L - 1) - 1 + 1 = M - min M (L - 1) := by omega
      rw [e1, List.range'_append_1, List.range_eq_range', List.range'_succ]
      have e2 : M - min M (L - 1) + min M (L - 1) = M := by omega
      rw [e2]
  · have hjM : min M (L - 1) = M := by omega
    simp only [hj, if_false] at hev hdef
    refine ⟨?_, ?_, ?_⟩
    · unfold outermostEvents
      rw [hdef, hev]
      simp only [weight, drainEvents, List.nil_append]
      rw [List.append_assoc, hd0, beforeFirstDefer_descend, beforeFirstDefer_ascend]
      simp only [beforeFirstDefer]
      unfold maxNesting
      rw [nestingFrom_descend _ _ _ _ _ _ (Nat.le_refl _), nestingFrom_ascend]
      simp only [nestingFrom]
      omega
    · unfold outermostEvents
      rw [hdef]
      simp only [weight, drainEvents]
      have e : Event.start 0 ::
          Event.execute 0 (__execute_impl ((chain (M + 1) L env) 0).__receiver_) ::
            (((chainPlan M 1).inline (chain (M + 1) L env) 1).events ++ [Event.returned 0])
          = (Event.start 0 ::
              Event.execute 0 (__execute_impl ((chain (M + 1) L env) 0).__receiver_) ::
                (((chainPlan M 1).inline (chain (M + 1) L env) 1).events ++
                  [Event.returned 0])) ++ [] := by
        simp
      rw [e, viaDrain_no_pop]
      · have e3 : M + 1 - L = 0 := by omega
        rw [e3]
        rfl
      · intro a ha
        simp only [List.mem_cons, List.mem_append, List.mem_singleton, List.not_mem_nil,
          or_false] at ha
        rcases ha with ha | ha | ha | ha
        · cases ha
        · cases ha
        · exact hnp a ha
        · cases ha
    · unfold outermostEvents
      rw [hdef]
      simp only [weight, drainEvents, executed, executed_append, hex, List.append_nil]
      rw [hjM, List.range_eq_range', List.range'_succ]

/-! ### Single actions -/

theorem start_create (t : Thread) (self : Nat) (hc : t.__current_ = none) :
    start self t =
      { __current_ := some { __recursion_depth_ := 1, __head_ := none }
        heap := t.heap
        stack := Frame.callback self (t.heap self).continuation :: Frame.outermost :: t.stack
        log := t.log ++
          [Event.start self, Event.execute self (__execute_impl (t.heap self).__receiver_)] } := by
  simp [start, hc, __execute]

theorem start_inline (t : Thread) (st : __trampoline_state) (self : Nat)
    (hc : t.__current_ = some st)
    (hlt : st.__recursion_depth_ < (t.heap self).__max_recursion_depth_) :
    start self t =
      { __current_ := some { st with __recursion_depth_ := st.__recursion_depth_ + 1 }
        heap := t.heap
        stack := Frame.callback self (t.heap self).continuation :: t.stack
        log := t.log ++
          [Event.start self, Event.execute self (__execute_impl (t.heap self).__receiver_)] } := by
  simp [start, hc, hlt, __execute]

theorem start_defer (t : Thread) (st : __trampoline_state) (self : Nat)
    (hc : t.__current_ = some st)
    (hge : ¬ st.__recursion_depth_ < (t.heap self).__max_recursion_depth_) :
    start self t =
      { __current_ := some { st with __head_ := some self }
        heap := Function.update t.heap self { t.heap self with __next_ := st.__head_ }
        stack := t.stack
        log := t.log ++ [Event.start self, Event.defer self] } := by
  simp [start, hc, hge]

/-- The actions of `step`, case by case. -/
theorem step_cases (t : Thread) :
    (t.stack = [] ∧ step t = t) ∨
    (∃ p below, t.stack = Frame.callback p [] :: below ∧
      step t = { __current_ := t.__current_, heap := t.heap, stack := below
                 log := t.log ++ [Event.returned p] }) ∨
    (∃ p a pending below, t.stack = Frame.callback p (a :: pending) :: below ∧
      step t = start a { t with stack := Frame.callback p pending :: below }) ∨
    (∃ below, t.stack = Frame.outermost :: below ∧ t.__current_ = none ∧
      step t = { t with stack := below }) ∨
    (∃ below st, t.stack = Frame.outermost :: below ∧ t.__current_ = some st ∧
      st.__head_ = none ∧
      step t = { __current_ := none, heap := t.heap, stack := below, log := t.log }) ∨
    (∃ below st op, t.stack = Frame.outermost :: below ∧ t.__current_ = some st ∧
      st.__head_ = some op ∧
      step t =
        { __current_ := some { __recursion_depth_ := 1, __head_ := (t.heap op).__next_ }
          heap := t.heap
          stack := Frame.callback op (t.heap op).continuation :: Frame.outermost :: below
          log := t.log ++
            [Event.pop op, Event.execute op (__execute_impl (t.heap op).__receiver_)] }) := by
  cases hs : t.stack with
  | nil => exact Or.inl ⟨rfl, step_idle t hs⟩
  | cons f below =>
    cases f with
    | callback p pending =>
      cases pending with
      | nil => exact Or.inr (Or.inl ⟨p, below, rfl, step_returned t p below hs⟩)
      | cons a pending =>
        refine Or.inr (Or.inr (Or.inl ⟨p, a, pending, below, rfl, ?_⟩))
        simp [step, hs]
    | outermost =>
      cases hc : t.__current_ with
      | none =>
        refine Or.inr (Or.inr (Or.inr (Or.inl ⟨below, rfl, rfl, ?_⟩)))
        simp [step, hs, hc]
      | some st =>
        cases hh : st.__head_ with
        | none =>
          exact Or.inr (Or.inr (Or.inr (Or.inr (Or.inl
            ⟨below, st, rfl, rfl, hh, step_exit t st below hs hc hh⟩))))
        | some op =>
          exact Or.inr (Or.inr (Or.inr (Or.inr (Or.inr
            ⟨below, st, op, rfl, rfl, hh, step_pop t st op below hs hc hh⟩))))

/-- How one action changes the recursion depth: a state is created with depth 1; an existing
state keeps its depth, or has it incremented by one, or has it reset to 1 by the drain loop
popping an operation. -/
theorem step_depth (t : Thread) (st2 : __trampoline_state)
    (h : (step t).__current_ = some st2) :
    (t.__current_ = none ∧ st2.__recursion_depth_ = 1) ∨
      ∃ st, t.__current_ = some st ∧
        (st2.__recursion_depth_ = st.__recursion_depth_ ∨
          st2.__recursion_depth_ = st.__recursion_depth_ + 1 ∨
          (st2.__recursion_depth_ = 1 ∧
            ∃ below op, t.stack = Frame.outermost :: below ∧ st.__head_ = some op)) := by
  rcases step_cases t with ⟨_, he⟩ | ⟨p, below, _, he⟩ | ⟨p, a, pending, below, _, he⟩ |
    ⟨below, _, hc, he⟩ | ⟨below, st, _, _, _, he⟩ | ⟨below, st, op, hs, hc, hh, he⟩
  · rw [he] at h
    exact Or.inr ⟨st2, h, Or.inl rfl⟩
  · rw [he] at h
    exact Or.inr ⟨st2, h, Or.inl rfl⟩
  · cases hc : t.__current_ with
    | none =>
      rw [he, start_create { t with stack := Frame.callback p pending :: below } a hc] at h
      simp only [Option.some.injEq] at h
      subst h
      exact Or.inl ⟨rfl, rfl⟩
    | some st =>
      by_cases hlt : st.__recursion_depth_ < (t.heap a).__max_recursion_depth_
      · rw [he, start_inline { t with stack := Frame.callback p pending :: below } st a hc hlt] at h
        simp only [Option.some.injEq] at h
        subst h
        exact Or.inr ⟨st, rfl, Or.inr (Or.inl rfl)⟩
      · rw [he, start_defer { t with stack := Frame.callback p pending :: below } st a hc hlt] at h
        simp only [Option.some.injEq] at h
        subst h
        exact Or.inr ⟨st, rfl, Or.inl rfl⟩
  · rw [he] at h
    simp only at h
    rw [hc] at h
    exact absurd h (by simp)
  · rw [he] at h
    simp at h
  · rw [he] at h
    simp only [Option.some.injEq] at h
    subst h
    exact Or.inr ⟨st, hc, Or.inr (Or.inr ⟨rfl, below, op, hs, hh⟩)⟩

theorem depth_pos_step (t : Thread)
    (h : ∀ st, t.__current_ = some st → 1 ≤ st.__recursion_depth_) :
    ∀ st2, (step t).__current_ = some st2 → 1 ≤ st2.__recursion_depth_ := by
  intro st2 h2
  rcases step_depth t st2 h2 with ⟨_, h1⟩ | ⟨st, hc, h1 | h1 | ⟨h1, _⟩⟩
  · omega
  · have := h st hc
    omega
  · omega
  · omega

theorem depth_pos_run (n : Nat) (t : Thread)
    (h : ∀ st, t.__current_ = some st → 1 ≤ st.__recursion_depth_) :
    ∀ st2, (run n t).__current_ = some st2 → 1 ≤ st2.__recursion_depth_ := by
  induction n with
  | zero => exact h
  | succ k ih =>
    rw [run_succ]
    exact depth_pos_step _ ih

theorem depth_pos_begin (heap : Nat → __operation) (root : Nat) :
    ∀ st, (begin heap root).__current_ = some st → 1 ≤ st.__recursion_depth_ := by
  intro st h
  rw [begin_eq] at h
  simp only [Option.some.injEq] at h
  subst h
  exact Nat.le_refl 1

theorem sameOps_step (heap0 : Nat → __operation) (t : Thread) (h : SameOps heap0 t.heap) :
    SameOps heap0 (step t).heap := by
  rcases step_cases t with ⟨_, he⟩ | ⟨p, below, _, he⟩ | ⟨p, a, pending, below, _, he⟩ |
    ⟨below, _, hc, he⟩ | ⟨below, st, _, _, _, he⟩ | ⟨below, st, op, hs, hc, hh, he⟩
  · rw [he]; exact h
  · rw [he]; exact h
  · cases hc : t.__current_ with
    | none =>
      rw [he, start_create { t with stack := Frame.callback p pending :: below } a hc]
      exact h
    | some st =>
      by_cases hlt : st.__recursion_depth_ < (t.heap a).__max_recursion_depth_
      · rw [he, start_inline { t with stack := Frame.callback p pending :: below } st a hc hlt]
        exact h
      · rw [he, start_defer { t with stack := Frame.callback p pending :: below } st a hc hlt]
        exact sameOps_update heap0 t.heap h a _
  · rw [he]; exact h
  · rw [he]; exact h
  · rw [he]; exact h

/-- While callbacks are active above a part `base` of the stack, that part is not touched, the
state stays in place and its depth does not decrease. -/
theorem nested_step (heap0 : Nat → __operation) (base : List Frame) (d : Nat) (t : Thread)
    (h : ∃ fs st, t.stack = fs ++ base ∧ (∀ f ∈ fs, f ≠ Frame.outermost) ∧
      t.__current_ = some st ∧ d ≤ st.__recursion_depth_ ∧ SameOps heap0 t.heap)
    (hlen : base.length < t.stack.length) :
    ∃ fs st, (step t).stack = fs ++ base ∧ (∀ f ∈ fs, f ≠ Frame.outermost) ∧
      (step t).__current_ = some st ∧ d ≤ st.__recursion_depth_ ∧
      SameOps heap0 (step t).heap := by
  obtain ⟨fs, st, hs, hcb, hc, hd, hso⟩ := h
  have hso2 := sameOps_step heap0 t hso
  cases fs with
  | nil =>
    rw [hs] at hlen
    simp at hlen
  | cons f fs =>
    have hf : f ≠ Frame.outermost := hcb f (List.mem_cons_self _ _)
    have hfs : ∀ g ∈ fs, g ≠ Frame.outermost := fun g hg => hcb g (List.mem_cons_of_mem _ hg)
    cases f with
    | outermost => exact absurd rfl hf
    | callback p pending =>
      simp only [List.cons_append] at hs
      cases pending with
      | nil =>
        refine ⟨fs, st, ?_, hfs, ?_, hd, hso2⟩
        · rw [step_returned t p _ hs]
        · rw [step_returned t p _ hs]
          exact hc
      | cons a rest =>
        by_cases hlt : st.__recursion_depth_ < (t.heap a).__max_recursion_depth_
        · refine ⟨Frame.callback a (t.heap a).continuation :: Frame.callback p rest :: fs,
            { st with __recursion_depth_ := st.__recursion_depth_ + 1 }, ?_, ?_, ?_, ?_, hso2⟩
          · rw [step_inline t st p a rest _ hs hc hlt]
            rfl
          · intro g hg
            simp only [List.mem_cons] at hg
            rcases hg with rfl | rfl | hg
            · simp
            · simp
            · exact hfs g hg
          · rw [step_inline t st p a rest _ hs hc hlt]
          · simp only
            omega
        · refine ⟨Frame.callback p rest :: fs, { st with __head_ := some a }, ?_, ?_, ?_, hd,
            hso2⟩
          · rw [step_defer t st p a rest _ hs hc hlt]
            rfl
          · intro g hg
            simp only [List.mem_cons] at hg
            rcases hg with rfl | hg
            · simp
            · exact hfs g hg
          · rw [step_defer t st p a rest _ hs hc hlt]

theorem nested_run (heap0 : Nat → __operation) (base : List Frame) (d : Nat) :
    ∀ (n : Nat) (t : Thread),
      (∃ fs st, t.stack = fs ++ base ∧ (∀ f ∈ fs, f ≠ Frame.outermost) ∧
        t.__current_ = some st ∧ d ≤ st.__recursion_depth_ ∧ SameOps heap0 t.heap) →
      (∀ k, k < n → base.length < (run k t).stack.length) →
      ∃ fs st, (run n t).stack = fs ++ base ∧ (∀ f ∈ fs, f ≠ Frame.outermost) ∧
        (run n t).__current_ = some st ∧ d ≤ st.__recursion_depth_ ∧
        SameOps heap0 (run n t).heap := by
  intro n
  induction n with
  | zero =>
    intro t h _
    exact h
  | succ n ih =>
    intro t h hk
    have h0 : base.length < t.stack.length := hk 0 (Nat.succ_pos n)
    have h1 := nested_step heap0 base d t h h0
    refine ih (step t) h1 ?_
    intro k hkn
    exact hk (k + 1) (Nat.succ_lt_succ hkn)

/-! ### A limit of 0 -/

theorem raiseZero_lt (heap : Nat → __operation) (a d : Nat) (hd : 1 ≤ d) :
    (d < (raiseZero heap a).__max_recursion_depth_) ↔ (d < (heap a).__max_recursion_depth_) := by
  unfold raiseZero
  simp only
  split_ifs with h0
  · omega
  · exact Iff.rfl

theorem raiseZero_update (heap : Nat → __operation) (a : Nat) (nx : Option Nat) :
    raiseZero (Function.update heap a { heap a with __next_ := nx })
      = Function.update (raiseZero heap) a { raiseZero heap a with __next_ := nx } := by
  funext b
  by_cases hb : b = a
  · subst hb
    simp [raiseZero]
  · simp [raiseZero, Function.update_noteq hb]

theorem step_raiseZero (t : Thread)
    (h : ∀ st, t.__current_ = some st → 1 ≤ st.__recursion_depth_) :
    step t.raiseZero = (step t).raiseZero := by
  rcases step_cases t with ⟨hs, he⟩ | ⟨p, below, hs, he⟩ | ⟨p, a, pending, below, hs, he⟩ |
    ⟨below, hs, hc, he⟩ | ⟨below, st, hs, hc, hh, he⟩ | ⟨below, st, op, hs, hc, hh, he⟩
  · rw [he]
    exact step_idle _ hs
  · rw [he, step_returned t.raiseZero p below hs]
    rfl
  · have hs2 : t.raiseZero.stack = Frame.callback p (a :: pending) :: below := hs
    cases hc : t.__current_ with
    | none =>
      rw [he, start_create { t with stack := Frame.callback p pending :: below } a hc]
      have e : step t.raiseZero
          = start a { t.raiseZero with stack := Frame.callback p pending :: below } := by
        simp [step, hs2]
      rw [e, start_create { t.raiseZero with stack := Frame.callback p pending :: below } a hc]
      rfl
    | some st =>
      have hd := h st hc
      by_cases hlt : st.__recursion_depth_ < (t.heap a).__max_recursion_depth_
      · have hlt2 : st.__recursion_depth_ < (t.raiseZero.heap a).__max_recursion_depth_ :=
          (raiseZero_lt t.heap a _ hd).mpr hlt
        rw [step_inline t st p a pending below hs hc hlt,
          step_inline t.raiseZero st p a pending below hs2 hc hlt2]
        rfl
      · have hlt2 : ¬ st.__recursion_depth_ < (t.raiseZero.heap a).__max_recursion_depth_ :=
          fun h2 => hlt ((raiseZero_lt t.heap a _ hd).mp h2)
        rw [step_defer t st p a pending below hs hc hlt,
          step_defer t.raiseZero st p a pending below hs2 hc hlt2]
        simp only [Thread.raiseZero, raiseZero_update]
  · rw [he]
    simp [step, Thread.raiseZero, hs, hc]
  · rw [he, step_exit t.raiseZero st below hs hc hh]
    rfl
  · rw [he, step_pop t.raiseZero st op below hs hc hh]
    rfl

theorem run_raiseZero (n : Nat) :
    ∀ t : Thread, (∀ st, t.__current_ = some st → 1 ≤ st.__recursion_depth_) →
      run n t.raiseZero = (run n t).raiseZero := by
  induction n with
  | zero =>
    intro t _
    rfl
  | succ n ih =>
    intro t h
    simp only [run]
    rw [step_raiseZero t h]
    exact ih (step t) (depth_pos_step t h)

theorem begin_raiseZero (heap : Nat → __operation) (root : Nat) :
    begin (raiseZero heap) root = (begin heap root).raiseZero := by
  rw [begin_eq, begin_eq]
  rfl

/-! ### Deferrals in a chain -/

theorem deferred_append (l1 l2 : List Event) :
    deferred (l1 ++ l2) = deferred l1 ++ deferred l2 := by
  induction l1 with
  | nil => simp [deferred]
  | cons e l ih =>
    cases e <;> simp [deferred, ih]

theorem popped_append (l1 l2 : List Event) : popped (l1 ++ l2) = popped l1 ++ popped l2 := by
  induction l1 with
  | nil => simp [popped]
  | cons e l ih =>
    cases e <;> simp [popped, ih]

theorem deferred_descend (heap : Nat → __operation) (j : Nat) :
    ∀ a, deferred (descend heap a j) = [] := by
  induction j with
  | zero =>
    intro a
    rfl
  | succ j ih =>
    intro a
    simp [descend, deferred, ih]

theorem deferred_ascend (j : Nat) : ∀ a, deferred (ascend a j) = [] := by
  induction j with
  | zero =>
    intro a
    rfl
  | succ j ih =>
    intro a
    simp [ascend, deferred_append, deferred, ih]

theorem popped_descend (heap : Nat → __operation) (j : Nat) :
    ∀ a, popped (descend heap a j) = [] := by
  induction j with
  | zero =>
    intro a
    rfl
  | succ j ih =>
    intro a
    simp [descend, popped, ih]

theorem popped_ascend (j : Nat) : ∀ a, popped (ascend a j) = [] := by
  induction j with
  | zero =>
    intro a
    rfl
  | succ j ih =>
    intro a
    simp [ascend, popped_append, popped, ih]

theorem segments_no_pop (l1 l2 : List Event) (h : ∀ a, Event.pop a ∉ l1) :
    segments (l1 ++ l2) = (l1 ++ (segments l2).1, (segments l2).2) := by
  induction l1 with
  | nil => rfl
  | cons e l ih =>
    have hl : ∀ a, Event.pop a ∉ l := fun a ha => h a (List.mem_cons_of_mem _ ha)
    cases e with
    | pop a => exact absurd (List.mem_cons_self _ _) (h a)
    | start a => simp [segments, ih hl]
    | execute a c => simp [segments, ih hl]
    | returned a => simp [segments, ih hl]
    | defer a => simp [segments, ih hl]

theorem descend_no_pop (heap : Nat → __operation) (j : Nat) :
    ∀ a b, Event.pop b ∉ descend heap a j := by
  induction j with
  | zero =>
    intro a b
    simp [descend]
  | succ j ih =>
    intro a b
    simp [descend, ih]

theorem ascend_no_pop (j : Nat) : ∀ a b, Event.pop b ∉ ascend a j := by
  induction j with
  | zero =>
    intro a b
    simp [ascend]
  | succ j ih =>
    intro a b
    simp [ascend, ih]

/-- The rest of a chain that fits under the limit runs nested, and nothing is deferred. -/
theorem chainTail_short (N L : Nat) (env : Option Env) (fuel a k : Nat) (hk : k < L) :
    chainTail (chain N L env) fuel a k
      = descend (chain N L env) (a + 1) k ++ (ascend (a + 1) k ++ [Event.returned a]) := by
  obtain ⟨hev, hdef⟩ := chain_inline N L env k (a + 1) 1
  have hj : min k (L - 1) = k := by omega
  have hnot : ¬ k < k := Nat.lt_irrefl k
  unfold chainTail
  rw [hev, hdef, hj]
  simp only [hnot, if_false, drainEvents_nil, List.nil_append, List.append_assoc]

/-- The rest of a chain that does not fit under the limit: `L - 1` operations run nested, the
next one, `L` places after `a`, is deferred, and the drain loop pops and enters it. -/
theorem chainTail_long (N L : Nat) (env : Option Env) (fuel a k : Nat) (hL : 1 ≤ L)
    (hk : L ≤ k) :
    chainTail (chain N L env) (fuel + 1) a k
      = descend (chain N L env) (a + 1) (L - 1) ++
          (Event.start (a + L) :: Event.defer (a + L) ::
            (ascend (a + 1) (L - 1) ++
              Event.returned a :: Event.pop (a + L) ::
                Event.execute (a + L) (__execute_impl ((chain N L env) (a + L)).__receiver_) ::
                  chainTail (chain N L env) fuel (a + L) (k - L))) := by
  obtain ⟨hev, hdef⟩ := chain_inline N L env k (a + 1) 1
  have hj : min k (L - 1) = L - 1 := by omega
  have hlt : L - 1 < k := by omega
  have e1 : a + 1 + (L - 1) = a + L := by omega
  have e2 : k - (L - 1) - 1 = k - L := by omega
  unfold chainTail
  rw [hev, hdef, hj]
  simp only [hlt, if_true, e1, e2, drainEvents, List.append_nil, List.cons_append,
    List.nil_append, List.append_assoc]

theorem chain_step_div (L k : Nat) (hL : 1 ≤ L) (hk : L ≤ k) : k / L = (k - L) / L + 1 := by
  have h := Nat.add_div_right (k - L) (show 0 < L by omega)
  rw [Nat.sub_add_cancel hk] at h
  exact h

theorem nesting_iteration (heap : Nat → __operation) (b j : Nat) (c : List Call)
    (X : List Event) (hX : ∀ cur mx, nestingFrom cur mx (X ++ (ascend (b + 1) j ++
      [Event.returned b])) = nestingFrom cur mx (ascend (b + 1) j ++ [Event.returned b])) :
    maxNesting (Event.pop b :: Event.execute b c ::
      (descend heap (b + 1) j ++ (X ++ (ascend (b + 1) j ++ [Event.returned b])))) = j + 1 := by
  unfold maxNesting
  simp only [nestingFrom]
  rw [nestingFrom_descend heap j (b + 1) (0 + 1) (max 0 (0 + 1)) _ (by omega), hX,
    nestingFrom_ascend]
  simp only [nestingFrom]
  omega

/-- The deferrals of a chain: after the operation at `a` has been entered at depth 1 with `k`
operations following it, the operations deferred and popped are those `L`, `2 L`, ... places
after `a`, and every iteration of the drain loop runs the popped operation and the operations
up to the next deferred one nested inside it. -/
theorem chainTail_deferrals (N L : Nat) (env : Option Env) (hL : 1 ≤ L) (fuel : Nat) :
    ∀ a k, (L ≤ k → k - L + 1 ≤ fuel) →
      deferred (chainTail (chain N L env) fuel a k)
          = (List.range (k / L)).map (fun i => a + (i + 1) * L) ∧
        popped (chainTail (chain N L env) fuel a k)
          = (List.range (k / L)).map (fun i => a + (i + 1) * L) ∧
        (segments (chainTail (chain N L env) fuel a k)).1
          = descend (chain N L env) (a + 1) (min k (L - 1)) ++
              ((if L ≤ k then [Event.start (a + L), Event.defer (a + L)] else []) ++
                (ascend (a + 1) (min k (L - 1)) ++ [Event.returned a])) ∧
        (iterations (chainTail (chain N L env) fuel a k)).map executed
          = (List.range (k / L)).map
              (fun i => List.range' (a + (i + 1) * L) (min L (k + 1 - (i + 1) * L))) ∧
        (iterations (chainTail (chain N L env) fuel a k)).map maxNesting
          = (List.range (k / L)).map (fun i => min L (k + 1 - (i + 1) * L)) := by
  induction fuel with
  | zero =>
    intro a k hf
    have hk : k < L := by
      by_contra hc
      have := hf (by omega)
      omega
    have hdiv : k / L = 0 := Nat.div_eq_of_lt hk
    have hj : min k (L - 1) = k := by omega
    have hnot : ¬ L ≤ k := by omega
    have hnp : ∀ b, Event.pop b ∉ descend (chain N L env) (a + 1) k ++
        (ascend (a + 1) k ++ [Event.returned a]) := by
      intro b
      simp [descend_no_pop, ascend_no_pop]
    have hseg := segments_no_pop _ [] hnp
    simp only [List.append_nil] at hseg
    rw [chainTail_short N L env 0 a k hk, hdiv, hj]
    unfold iterations
    rw [hseg]
    simp [hnot, deferred_append, deferred_descend, deferred_ascend, deferred, popped_append,
      popped_descend, popped_ascend, popped, segments]
  | succ fuel ih =>
    intro a k hf
    by_cases hk : k < L
    · have hdiv : k / L = 0 := Nat.div_eq_of_lt hk
      have hj : min k (L - 1) = k := by omega
      have hnot : ¬ L ≤ k := by omega
      have hnp : ∀ b, Event.pop b ∉ descend (chain N L env) (a + 1) k ++
          (ascend (a + 1) k ++ [Event.returned a]) := by
        intro b
        simp [descend_no_pop, ascend_no_pop]
      have hseg := segments_no_pop _ [] hnp
      simp only [List.append_nil] at hseg
      rw [chainTail_short N L env (fuel + 1) a k hk, hdiv, hj]
      unfold iterations
      rw [hseg]
      simp [hnot, deferred_append, deferred_descend, deferred_ascend, deferred, popped_append,
        popped_descend, popped_ascend, popped, segments]
    · have hLk : L ≤ k := by omega
      have hf2 : L ≤ k - L → k - L - L + 1 ≤ fuel := by
        intro _
        have := hf hLk
        omega
      obtain ⟨ih1, ih2, ih3, ih4, ih5⟩ := ih (a + L) (k - L) hf2
      have hdiv := chain_step_div L k hL hLk
      have hj : min k (L - 1) = L - 1 := by omega
      have hnp : ∀ b, Event.pop b ∉ descend (chain N L env) (a + 1) (L - 1) ++
          (Event.start (a + L) :: Event.defer (a + L) ::
            (ascend (a + 1) (L - 1) ++ [Event.returned a])) := by
        intro b
        simp [descend_no_pop, ascend_no_pop]
      have hshape : chainTail (chain N L env) (fuel + 1) a k
          = (descend (chain N L env) (a + 1) (L - 1) ++
              (Event.start (a + L) :: Event.defer (a + L) ::
                (ascend (a + 1) (L - 1) ++ [Event.returned a]))) ++
            Event.pop (a + L) ::
              Event.execute (a + L) (__execute_impl ((chain N L env) (a + L)).__receiver_) ::
                chainTail (chain N L env) fuel (a + L) (k - L) := by
        rw [chainTail_long N L env fuel a k hL hLk]
        simp [List.append_assoc]
      have hseg := segments_no_pop _
        (Event.pop (a + L) ::
          Event.execute (a + L) (__execute_impl ((chain N L env) (a + L)).__receiver_) ::
            chainTail (chain N L env) fuel (a + L) (k - L)) hnp
      have hshift : ∀ i, a + L + (i + 1) * L = a + (i + 1 + 1) * L := by
        intro i
        have : (i + 1 + 1) * L = (i + 1) * L + L := by ring
        omega
      have hshift2 : ∀ i, k - L + 1 - (i + 1) * L = k + 1 - (i + 1 + 1) * L := by
        intro i
        have : (i + 1 + 1) * L = (i + 1) * L + L := by ring
        omega
      have hfirst : min (k - L) (L - 1) + 1 = min L (k + 1 - (0 + 1) * L) := by
        simp only [Nat.zero_add, Nat.one_mul]
        omega
      rw [hshape, hdiv, List.range_succ_eq_map]
      unfold iterations
      rw [hseg]
      simp only [segments]
      refine ⟨?_, ?_, ?_, ?_, ?_⟩
      · rw [deferred_append, deferred_append, deferred_descend]
        simp only [deferred, deferred_append, deferred_ascend, ih1, List.nil_append,
          List.map_cons, List.map_map, Nat.zero_add, Nat.one_mul, List.append_nil,
          List.cons_append]
        congr 1
        apply List.map_congr_left
        intro i _
        exact hshift i
      · rw [popped_append, popped_append, popped_descend]
        simp only [popped, popped_append, popped_ascend, ih2, List.nil_append,
          List.map_cons, List.map_map, Nat.zero_add, Nat.one_mul, List.append_nil]
        congr 1
        apply List.map_congr_left
        intro i _
        exact hshift i
      · simp only [hj, hLk, if_true, List.cons_append, List.nil_append, List.append_nil]
      · simp only [List.map_cons, List.map_map]
        unfold iterations at ih4
        rw [ih4, ih3]
        congr 1
        · simp only [executed, executed_append, executed_descend, executed_ascend]
          by_cases h2 : L ≤ k - L
          · simp only [h2, if_true, executed, List.append_nil]
            rw [← List.range'_succ, hfirst]
            simp only [Nat.zero_add, Nat.one_mul]
          · simp only [h2, if_false, executed, List.nil_append, List.append_nil]
            rw [← List.range'_succ, hfirst]
            simp only [Nat.zero_add, Nat.one_mul]
        · apply List.map_congr_left
          intro i _
          simp only [Function.comp, Nat.succ_eq_add_one]
          rw [hshift i, hshift2 i]
      · simp only [List.map_cons, List.map_map]
        unfold iterations at ih5
        rw [ih5, ih3]
        congr 1
        · rw [← hfirst]
          apply nesting_iteration
          intro cur mx
          by_cases h2 : L ≤ k - L
          · simp only [h2, if_true, List.cons_append, List.nil_append, nestingFrom]
          · simp only [h2, if_false, List.nil_append]
        · apply List.map_congr_left
          intro i _
          simp only [Function.comp, Nat.succ_eq_add_one]
          rw [hshift2 i]

theorem div_eq_sub_iff (L N : Nat) (hL : 1 ≤ L) (hN : 1 ≤ N) :
    ((N - 1) / L = N - L ↔ (L = 1 ∨ N ≤ L + 1)) := by
  constructor
  · intro h
    by_contra hc
    push_neg at hc
    obtain ⟨h1, h2⟩ := hc
    have h3 : (N - 1) / L * L ≤ N - 1 := Nat.div_mul_le_self _ _
    rw [h] at h3
    obtain ⟨q, rfl⟩ : ∃ q, N = q + 2 + L := ⟨N - L - 2, by omega⟩
    obtain ⟨m, rfl⟩ : ∃ m, L = m + 2 := ⟨L - 2, by omega⟩
    have e1 : q + 2 + (m + 2) - (m + 2) = q + 2 := by omega
    rw [e1] at h3
    have e2 : (q + 2) * (m + 2) = q * m + 2 * q + 2 * m + 4 := by ring
    rw [e2] at h3
    omega
  · rintro (h | h)
    · subst h; simp
    · by_cases hNL : N ≤ L
      · have : N - L = 0 := by omega
        rw [this]
        exact Nat.div_eq_of_lt (by omega)
      · have hN2 : N = L + 1 := by omega
        subst hN2
        simp
        exact Nat.div_self (by omega)

/-! ## The claims -/

/-- C1. For every program of `start` calls in which every operation carries the same limit
`L ≥ 1`, at every point of an outermost `start` at most `L` callbacks are active: the number of
active callbacks never exceeds the recursion depth of the trampoline state, and that depth never
exceeds `L`. -/
theorem C1_active_callbacks_bounded (heap : Nat → __operation) (L : Nat) (hL : 1 ≤ L)
    (hlim : ∀ a, (heap a).__max_recursion_depth_ = L) (root n : Nat) :
    active (run n (begin heap root)) ≤ L ∧
      ∀ st, (run n (begin heap root)).__current_ = some st →
        active (run n (begin heap root)) ≤ st.__recursion_depth_ ∧
          st.__recursion_depth_ ≤ L :=
  bounded_active L _ (bounded_run L hL n _ (bounded_begin L hL heap hlim root))

/-- C1 at the chain of five operations with limit 2, three actions into the outermost
`start`. -/
theorem C1_active_callbacks_bounded_witness :
    1 ≤ 2 ∧ (∀ a, (chain 5 2 none a).__max_recursion_depth_ = 2) ∧
      (active (run 3 (begin (chain 5 2 none) 0)) ≤ 2 ∧
        ∀ st, (run 3 (begin (chain 5 2 none) 0)).__current_ = some st →
          active (run 3 (begin (chain 5 2 none) 0)) ≤ st.__recursion_depth_ ∧
            st.__recursion_depth_ ≤ 2) :=
  ⟨by decide, fun _ => rfl,
    C1_active_callbacks_bounded (chain 5 2 none) 2 (by decide) (fun _ => rfl) 0 3⟩

/-- C2 (amended: limit at least 1). For every chain of `N ≥ 1` operations in which each
callback begins the next, all with the limit `L ≥ 1`, the outermost `start` returns and its log
shows exactly `min N L` levels of native recursion before the first deferral, the remaining
`N - L` operations `L, ..., N - 1` executed by way of the drain loop (popped by it, or nested
inline inside a popped operation), and all `N` operations executed exactly once, in chain
order. -/
theorem C2_chain_recursion_then_drain (N L : Nat) (env : Option Env) (hN : 1 ≤ N)
    (hL : 1 ≤ L) :
    ∃ n, (run n (begin (chain N L env) 0)).stack = [] ∧
      ChainClaim N L (run n (begin (chain N L env) 0)).log := by
  obtain ⟨M, rfl⟩ : ∃ M, N = M + 1 := ⟨N - 1, by omega⟩
  have hr : (Plan.op 0 (chainPlan M 1) Plan.done).realized (chain (M + 1) L env) :=
    chainPlan_realized (M + 1) L env (M + 1) 0 (by omega)
  have hnd : (Plan.op 0 (chainPlan M 1) Plan.done).addrs.Nodup := by
    have h := chainPlan_addrs (M + 1) 0
    have e : chainPlan (M + 1) 0 = Plan.op 0 (chainPlan M 1) Plan.done := rfl
    rw [e] at h
    rw [h]
    exact List.nodup_range' 0 (M + 1)
  obtain ⟨n, _, hs, hlog⟩ := begin_sim (chain (M + 1) L env) 0 (chainPlan M 1) hr hnd
  refine ⟨n, hs, ?_⟩
  rw [hlog]
  exact chain_claim M L env hL

/-- C2 at the chain of seven operations with limit 3. -/
theorem C2_chain_recursion_then_drain_witness :
    1 ≤ 7 ∧ 1 ≤ 3 ∧
      ∃ n, (run n (begin (chain 7 3 none) 0)).stack = [] ∧
        ChainClaim 7 3 (run n (begin (chain 7 3 none) 0)).log :=
  ⟨by decide, by decide, C2_chain_recursion_then_drain 7 3 none (by decide) (by decide)⟩

/-- C2 as stated fails for the limit 0: the single operation of a chain of one still runs
inline, one level of native recursion and not `min 1 0 = 0`, and nothing is left for the drain
loop, not `1 - 0 = 1` operation. -/
theorem C2_limit_zero_counterexample :
    ¬ ∃ n, (run n (begin (chain 1 0 none) 0)).stack = [] ∧
      ChainClaim 1 0 (run n (begin (chain 1 0 none) 0)).log := by
  rintro ⟨n, hs, hc⟩
  have hfin : (run 2 (begin (chain 1 0 none) 0)).stack = [] := by decide
  rw [run_final_unique _ n 2 hs hfin] at hc
  exact absurd hc (by decide)

/-- C3. For every finite program of `start` calls in which each operation is begun at most once
(a plan with pairwise distinct operations that the operations in memory follow), the outermost
`start` returns, and when it has returned the operations on which `start` was called are
exactly those of the program, each of them has had its callback executed exactly once, no other
callback was executed, and every operation that was deferred has been popped and executed. -/
theorem C3_every_begun_operation_executes_once (heap : Nat → __operation) (root : Nat)
    (inside : Plan) (hr : (Plan.op root inside Plan.done).realized heap)
    (hnd : (Plan.op root inside Plan.done).addrs.Nodup) :
    ∃ n, (run n (begin heap root)).stack = [] ∧
      (begun (run n (begin heap root)).log).Perm (Plan.op root inside Plan.done).addrs ∧
      (∀ a, a ∈ begun (run n (begin heap root)).log →
        (executed (run n (begin heap root)).log).count a = 1) ∧
      (∀ a, a ∉ begun (run n (begin heap root)).log →
        (executed (run n (begin heap root)).log).count a = 0) ∧
      (∀ a, Event.defer a ∈ (run n (begin heap root)).log →
        Event.pop a ∈ (run n (begin heap root)).log ∧
          a ∈ executed (run n (begin heap root)).log) := by
  obtain ⟨n, _, hs, hlog⟩ := begin_sim heap root inside hr hnd
  have hb := outermost_begun_perm heap root inside
  have he := outermost_executed_perm heap root inside
  refine ⟨n, hs, ?_, ?_, ?_, ?_⟩
  · rw [hlog]; exact hb
  · intro a ha
    rw [hlog] at ha ⊢
    rw [he.count_eq a]
    exact List.count_eq_one_of_mem hnd (hb.subset ha)
  · intro a ha
    rw [hlog] at ha ⊢
    rw [he.count_eq a]
    exact List.count_eq_zero_of_not_mem (fun h => ha (hb.symm.subset h))
  · intro a ha
    rw [hlog] at ha ⊢
    obtain ⟨l1, l3, hsplit⟩ := List.append_of_mem ha
    have h1 := lifo_outermost heap root inside
    have h2 := popsRun_outermost heap root inside
    rw [hsplit] at h1 h2 ⊢
    obtain ⟨S1, _, hrest⟩ := lifo_split l1 _ [] [] h1
    obtain ⟨m2, m3, hm⟩ := lifo_pop_of_mem l3 (a :: S1) a (by simpa [lifo] using hrest)
      (List.mem_cons_self _ _)
    subst hm
    have e1 : l1 ++ Event.defer a :: (m2 ++ Event.pop a :: m3)
        = (l1 ++ Event.defer a :: m2) ++ Event.pop a :: m3 := by
      simp [List.append_assoc]
    obtain ⟨c, post, hpost⟩ := popsRun_spec _ a _ (e1 ▸ h2)
    subst hpost
    refine ⟨by simp, mem_executed _ a c (by simp)⟩

/-- C3 at the program `fanBegins` with limit 1, in which three operations are deferred. -/
theorem C3_every_begun_operation_executes_once_witness :
    (Plan.op 0 fanInside Plan.done).realized (ops 1 none fanBegins) ∧
      (Plan.op 0 fanInside Plan.done).addrs.Nodup ∧
      ∃ n, (run n (begin (ops 1 none fanBegins) 0)).stack = [] ∧
        (begun (run n (begin (ops 1 none fanBegins) 0)).log).Perm
          (Plan.op 0 fanInside Plan.done).addrs ∧
        (∀ a, a ∈ begun (run n (begin (ops 1 none fanBegins) 0)).log →
          (executed (run n (begin (ops 1 none fanBegins) 0)).log).count a = 1) ∧
        (∀ a, a ∉ begun (run n (begin (ops 1 none fanBegins) 0)).log →
          (executed (run n (begin (ops 1 none fanBegins) 0)).log).count a = 0) ∧
        (∀ a, Event.defer a ∈ (run n (begin (ops 1 none fanBegins) 0)).log →
          Event.pop a ∈ (run n (begin (ops 1 none fanBegins) 0)).log ∧
            a ∈ executed (run n (begin (ops 1 none fanBegins) 0)).log) :=
  ⟨by decide, by decide,
    C3_every_begun_operation_executes_once (ops 1 none fanBegins) 0 fanInside
      (by decide) (by decide)⟩

/-- C4. For every finite program of `start` calls (operations whose callbacks defer further
operations during the drain included), the outermost `start` returns; whenever it has returned
the thread has no trampoline state and no deferred operation is pending; and the action by which
it returns finds the deferred list empty. -/
theorem C4_outermost_start_returns_drained (heap : Nat → __operation) (root : Nat)
    (inside : Plan) (hr : (Plan.op root inside Plan.done).realized heap)
    (hnd : (Plan.op root inside Plan.done).addrs.Nodup) :
    (∃ n, (run n (begin heap root)).stack = []) ∧
      (∀ m, (run m (begin heap root)).stack = [] →
        (run m (begin heap root)).__current_ = none ∧
          pending (run m (begin heap root)).log = []) ∧
      (∀ m, (run m (begin heap root)).stack ≠ [] → (run (m + 1) (begin heap root)).stack = [] →
        ∃ st, (run m (begin heap root)).__current_ = some st ∧ st.__head_ = none) := by
  obtain ⟨n, hc, hs, hlog⟩ := begin_sim heap root inside hr hnd
  refine ⟨⟨n, hs⟩, ?_, ?_⟩
  · intro m hm
    rw [run_final_unique _ m n hm hs]
    refine ⟨hc, ?_⟩
    rw [hlog]
    exact lifo_pendingFrom _ [] [] (lifo_outermost heap root inside)
  · intro m hne hret
    rw [run_succ] at hret
    exact shape_return _ (shape_run m _ (shape_begin heap root)) hne hret

/-- C5. For every finite program of `start` calls in which each operation is begun at most
once, the deferred list is a stack: (a) every pop of the drain loop takes the most recently
deferred operation that is still pending and executes it at once; (b) when `A` and then `B` are
deferred with no pop in between, the callback of `B` executes before that of `A`; (c) an
operation `Y` deferred during the drain-time execution of a popped operation `X` executes before
every operation that is pending when `Y` is deferred. -/
theorem C5_deferred_list_is_a_stack (heap : Nat → __operation) (root : Nat)
    (inside : Plan) (hr : (Plan.op root inside Plan.done).realized heap)
    (hnd : (Plan.op root inside Plan.done).addrs.Nodup) :
    ∃ n, (run n (begin heap root)).stack = [] ∧
      (∀ pre a post, (run n (begin heap root)).log = pre ++ Event.pop a :: post →
        (pending pre).head? = some a ∧ ∃ c post2, post = Event.execute a c :: post2) ∧
      (∀ l1 A l2 B l3,
        (run n (begin heap root)).log = l1 ++ Event.defer A :: (l2 ++ Event.defer B :: l3) →
        (∀ x, Event.pop x ∉ l2) →
        ∃ m1 cB m2 cA m3,
          l3 = m1 ++ Event.execute B cB :: (m2 ++ Event.execute A cA :: m3)) ∧
      (∀ l1 X l2 Y l3,
        (run n (begin heap root)).log = l1 ++ Event.pop X :: (l2 ++ Event.defer Y :: l3) →
        (∀ x, Event.pop x ∉ l2) →
        ∀ Z, Z ∈ pending (l1 ++ Event.pop X :: l2) →
          ∃ m1 cY m2 cZ m3,
            l3 = m1 ++ Event.execute Y cY :: (m2 ++ Event.execute Z cZ :: m3)) := by
  obtain ⟨n, _, hs, hlog⟩ := begin_sim heap root inside hr hnd
  have h1 := lifo_outermost heap root inside
  have h2 := popsRun_outermost heap root inside
  rw [← hlog] at h1 h2
  refine ⟨n, hs, ?_, ?_, ?_⟩
  · intro pre a post hsplit
    rw [hsplit] at h1 h2
    obtain ⟨S1, hS1, hrest⟩ := lifo_split pre _ [] [] h1
    have hp : pending pre = S1 := lifo_pendingFrom pre [] S1 hS1
    refine ⟨?_, popsRun_spec pre a post h2⟩
    rw [hp]
    cases S1 with
    | nil => simp [lifo] at hrest
    | cons b S =>
      by_cases hab : a = b
      · simp [hab]
      · simp [lifo, hab] at hrest
  · intro l1 A l2 B l3 hsplit hnp
    have hsplit2 : (run n (begin heap root)).log
        = (l1 ++ Event.defer A :: l2) ++ Event.defer B :: l3 := by
      rw [hsplit]; simp [List.append_assoc]
    refine lifo_order _ h1 h2 _ l3 B A hsplit2 ?_
    unfold pending
    rw [pendingFrom_append]
    exact pendingFrom_mem_of_no_pop l2 hnp _ A (List.mem_cons_self _ _)
  · intro l1 X l2 Y l3 hsplit _ Z hZ
    have hsplit2 : (run n (begin heap root)).log
        = (l1 ++ Event.pop X :: l2) ++ Event.defer Y :: l3 := by
      rw [hsplit]; simp [List.append_assoc]
    exact lifo_order _ h1 h2 _ l3 Y Z hsplit2 hZ

/-- C4 at the program `fanBegins` with limit 1. -/
theorem C4_outermost_start_returns_drained_witness :
    (Plan.op 0 fanInside Plan.done).realized (ops 1 none fanBegins) ∧
      (Plan.op 0 fanInside Plan.done).addrs.Nodup ∧
      ((∃ n, (run n (begin (ops 1 none fanBegins) 0)).stack = []) ∧
        (∀ m, (run m (begin (ops 1 none fanBegins) 0)).stack = [] →
          (run m (begin (ops 1 none fanBegins) 0)).__current_ = none ∧
            pending (run m (begin (ops 1 none fanBegins) 0)).log = []) ∧
        (∀ m, (run m (begin (ops 1 none fanBegins) 0)).stack ≠ [] →
          (run (m + 1) (begin (ops 1 none fanBegins) 0)).stack = [] →
          ∃ st, (run m (begin (ops 1 none fanBegins) 0)).__current_ = some st ∧
            st.__head_ = none)) :=
  ⟨by decide, by decide,
    C4_outermost_start_returns_drained (ops 1 none fanBegins) 0 fanInside
      (by decide) (by decide)⟩

/-- C5 at the program `fanBegins` with limit 1: operations 1 and 2 are deferred in that order
and 2 executes first; operation 3 is deferred while the popped operation 1 executes. -/
theorem C5_deferred_list_is_a_stack_witness :
    (Plan.op 0 fanInside Plan.done).realized (ops 1 none fanBegins) ∧
      (Plan.op 0 fanInside Plan.done).addrs.Nodup ∧
      ∃ n, (run n (begin (ops 1 none fanBegins) 0)).stack = [] ∧
        (∀ pre a post,
          (run n (begin (ops 1 none fanBegins) 0)).log = pre ++ Event.pop a :: post →
          (pending pre).head? = some a ∧ ∃ c post2, post = Event.execute a c :: post2) ∧
        (∀ l1 A l2 B l3,
          (run n (begin (ops 1 none fanBegins) 0)).log
            = l1 ++ Event.defer A :: (l2 ++ Event.defer B :: l3) →
          (∀ x, Event.pop x ∉ l2) →
          ∃ m1 cB m2 cA m3,
            l3 = m1 ++ Event.execute B cB :: (m2 ++ Event.execute A cA :: m3)) ∧
        (∀ l1 X l2 Y l3,
          (run n (begin (ops 1 none fanBegins) 0)).log
            = l1 ++ Event.pop X :: (l2 ++ Event.defer Y :: l3) →
          (∀ x, Event.pop x ∉ l2) →
          ∀ Z, Z ∈ pending (l1 ++ Event.pop X :: l2) →
            ∃ m1 cY m2 cZ m3,
              l3 = m1 ++ Event.execute Y cY :: (m2 ++ Event.execute Z cZ :: m3)) :=
  ⟨by decide, by decide,
    C5_deferred_list_is_a_stack (ops 1 none fanBegins) 0 fanInside (by decide) (by decide)⟩

/-- C6. Limit 2 and three operations at the addresses 0, 1, 2 (op1, op2, op3), each callback
beginning the next, op1 begun with no trampoline state, no receiver's token reporting a stop
request: op1 runs inline at depth 1; op2 runs inline nested in op1 with the depth raised to 2;
op3 is deferred and not executed inside op2; after the inline execution of op1 has returned the
drain loop pops and executes op3 (at depth 1) before the outermost `start` returns; all three
callbacks deliver `set_value`. -/
theorem C6_three_operations_limit_two (env : Option Env)
    (h : ∀ e tok, env = some e → e.stop_token = some tok → tok.stop_requested = false) :
    (begin (chain 3 2 env) 0).log = [Event.start 0, Event.execute 0 [Call.set_value]] ∧
    (begin (chain 3 2 env) 0).__current_
      = some { __recursion_depth_ := 1, __head_ := none } ∧
    (begin (chain 3 2 env) 0).stack = [Frame.callback 0 [1], Frame.outermost] ∧
    (run 1 (begin (chain 3 2 env) 0)).log
      = [Event.start 0, Event.execute 0 [Call.set_value],
          Event.start 1, Event.execute 1 [Call.set_value]] ∧
    (run 1 (begin (chain 3 2 env) 0)).__current_
      = some { __recursion_depth_ := 2, __head_ := none } ∧
    (run 1 (begin (chain 3 2 env) 0)).stack
      = [Frame.callback 1 [2], Frame.callback 0 [], Frame.outermost] ∧
    (run 2 (begin (chain 3 2 env) 0)).log
      = [Event.start 0, Event.execute 0 [Call.set_value],
          Event.start 1, Event.execute 1 [Call.set_value],
          Event.start 2, Event.defer 2] ∧
    (run 2 (begin (chain 3 2 env) 0)).__current_
      = some { __recursion_depth_ := 2, __head_ := some 2 } ∧
    (run 2 (begin (chain 3 2 env) 0)).stack
      = [Frame.callback 1 [], Frame.callback 0 [], Frame.outermost] ∧
    (run 4 (begin (chain 3 2 env) 0)).log
      = [Event.start 0, Event.execute 0 [Call.set_value],
          Event.start 1, Event.execute 1 [Call.set_value],
          Event.start 2, Event.defer 2, Event.returned 1, Event.returned 0] ∧
    (run 4 (begin (chain 3 2 env) 0)).__current_
      = some { __recursion_depth_ := 2, __head_ := some 2 } ∧
    (run 4 (begin (chain 3 2 env) 0)).stack = [Frame.outermost] ∧
    (run 5 (begin (chain 3 2 env) 0)).log
      = [Event.start 0, Event.execute 0 [Call.set_value],
          Event.start 1, Event.execute 1 [Call.set_value],
          Event.start 2, Event.defer 2, Event.returned 1, Event.returned 0,
          Event.pop 2, Event.execute 2 [Call.set_value]] ∧
    (run 5 (begin (chain 3 2 env) 0)).__current_
      = some { __recursion_depth_ := 1, __head_ := none } ∧
    (run 5 (begin (chain 3 2 env) 0)).stack = [Frame.callback 2 [], Frame.outermost] ∧
    (run 7 (begin (chain 3 2 env) 0)).log
      = [Event.start 0, Event.execute 0 [Call.set_value],
          Event.start 1, Event.execute 1 [Call.set_value],
          Event.start 2, Event.defer 2, Event.returned 1, Event.returned 0,
          Event.pop 2, Event.execute 2 [Call.set_value], Event.returned 2] ∧
    (run 7 (begin (chain 3 2 env) 0)).__current_ = none ∧
    (run 7 (begin (chain 3 2 env) 0)).stack = [] := by
  cases env with
  | none => decide
  | some e =>
    obtain ⟨tok⟩ := e
    cases tok with
    | none => decide
    | some tk =>
      cases tk with
      | never_stop_token => decide
      | inplace_stop_token requested =>
        cases requested with
        | false => decide
        | true => exact absurd (h _ _ rfl rfl) (by decide)

/-- C6 for receivers whose environment supplies a token on which no stop was requested. -/
theorem C6_three_operations_limit_two_witness :
    (∀ e tok, some ({ stop_token := some (StopToken.inplace_stop_token false) } : Env) = some e →
        e.stop_token = some tok → tok.stop_requested = false) ∧
      (run 7 (begin (chain 3 2
          (some { stop_token := some (StopToken.inplace_stop_token false) })) 0)).log
        = [Event.start 0, Event.execute 0 [Call.set_value],
            Event.start 1, Event.execute 1 [Call.set_value],
            Event.start 2, Event.defer 2, Event.returned 1, Event.returned 0,
            Event.pop 2, Event.execute 2 [Call.set_value], Event.returned 2] :=
  have h : ∀ e tok,
      some ({ stop_token := some (StopToken.inplace_stop_token false) } : Env) = some e →
        e.stop_token = some tok → tok.stop_requested = false := by
    intro e tok he ht
    cases he
    cases ht
    rfl
  ⟨h, (C6_three_operations_limit_two _ h).2.2.2.2.2.2.2.2.2.2.2.2.2.2.2.1⟩

/-- C7 (fails on the code). A receiver whose environment supplies, through its `get_stop_token`
customisation, a token that reports "requested" is given `set_value`, not `set_stopped`: the
customisation is never consulted, since the only viable call operator of `get_stop_token_t`
returns a `never_stop_token`. This is so when the operation runs as the outermost call (0),
nested inline (1) and from the drain loop after having been deferred (2). -/
theorem C7_requested_stop_still_delivers_value :
    __execute_impl
        { env := some { stop_token := some (StopToken.inplace_stop_token true) }
          set_value := [], set_stopped := [] } = [Call.set_value] ∧
      (run 7 (begin (chain 3 2
          (some { stop_token := some (StopToken.inplace_stop_token true) })) 0)).log
        = [Event.start 0, Event.execute 0 [Call.set_value],
            Event.start 1, Event.execute 1 [Call.set_value],
            Event.start 2, Event.defer 2, Event.returned 1, Event.returned 0,
            Event.pop 2, Event.execute 2 [Call.set_value], Event.returned 2] := by
  decide

/-- C8. For every receiver whose stop-token type is statically known never to signal
cancellation, the callback makes exactly one call, `set_value`: it delivers the success signal
once, never `set_stopped`, and does not ask the token at run time. -/
theorem C8_unstoppable_token_delivers_value (r : Receiver)
    (h : unstoppable_token (stop_token_of_t (get_env r)) = true) :
    __execute_impl r = [Call.set_value] := by
  simp [__execute_impl, h]

/-- C8 at a receiver without an environment of its own. -/
theorem C8_unstoppable_token_delivers_value_witness :
    unstoppable_token (stop_token_of_t
        (get_env { env := none, set_value := [1], set_stopped := [] })) = true ∧
      __execute_impl { env := none, set_value := [1], set_stopped := [] } = [Call.set_value] :=
  ⟨by decide, C8_unstoppable_token_delivers_value _ (by decide)⟩

/-- C9. For all limits `a` and `b`, `scheduler(a) == scheduler(b)` holds exactly when `a = b`;
the default-constructed scheduler has the limit 16, so it compares equal to `scheduler(n)`
exactly when `n = 16`. -/
theorem C9_scheduler_equality (a b : Nat) :
    ((__scheduler.explicit a).eq (__scheduler.explicit b) = true ↔ a = b) ∧
      __scheduler.default.__max_recursion_depth_ = 16 ∧
      (__scheduler.default.eq (__scheduler.explicit a) = true ↔ a = 16) := by
  refine ⟨?_, rfl, ?_⟩
  · simp [__scheduler.eq, __scheduler.explicit]
  · simp [__scheduler.eq, __scheduler.explicit, __scheduler.default, eq_comm]

/-- C10. For every scheduler `s`, the value-completion scheduler of the task descriptor
`schedule(s)` compares equal to `s`: it carries the same nesting limit. -/
theorem C10_completion_scheduler_round_trip (s : __scheduler) :
    (get_completion_scheduler_set_value (schedule s)).eq s = true ∧
      (get_completion_scheduler_set_value (schedule s)).__max_recursion_depth_
        = s.__max_recursion_depth_ := by
  simp [__scheduler.eq, get_completion_scheduler_set_value, schedule, __scheduler.explicit]

/-- C11. For every scheduler `s` with limit `L` and every receiver `r`, the operation obtained
by binding `r` to the descriptor `schedule(s)` has the limit `L`, a null `__next_` link and the
receiver `r`; producing the descriptor and binding it take no thread state, and constructing the
operation at any address of any thread leaves the trampoline state, the stack of active calls
and the log as they are. -/
theorem C11_bound_operation_carries_limit (s : __scheduler) (r : Receiver) (t : Thread)
    (addr : Nat) :
    (connect (schedule s) r).__max_recursion_depth_ = s.__max_recursion_depth_ ∧
      (connect (schedule s) r).__next_ = none ∧
      (connect (schedule s) r).__receiver_ = r ∧
      (t.emplace addr (connect (schedule s) r)).__current_ = t.__current_ ∧
      (t.emplace addr (connect (schedule s) r)).stack = t.stack ∧
      (t.emplace addr (connect (schedule s) r)).log = t.log ∧
      (t.emplace addr (connect (schedule s) r)).heap
        = Function.update t.heap addr (connect (schedule s) r) :=
  ⟨rfl, rfl, rfl, rfl, rfl, rfl, rfl⟩

/-- C12 as stated fails: applied to the default-constructed scheduler the query
`execute_may_block_caller` does not yield `false`. -/
theorem C12_query_is_not_false :
    ¬ (execute_may_block_caller __scheduler.default = false) := by
  decide

/-- C12 (amended). For every trampoline scheduler value `s`, the query
`execute_may_block_caller` applied to `s` yields `true`: the scheduler does not customise the
query, and the call operator that is left returns `true`. -/
theorem C12_execute_may_block_caller_is_true (s : __scheduler) :
    execute_may_block_caller s = true := by
  simp [execute_may_block_caller, execute_may_block_caller_viable]

/-- C13. When `start` is called on an operation with limit `M` while a trampoline state exists
with depth `d < M`: the depth becomes `d + 1` and the callback is entered inline, on top of the
caller's stack; the depth is not decremented afterwards, it is at least `d + 1` for as long as
the callback is active and at the moment it has returned; so a sibling `b` that the same caller
begins next is deferred when its limit is at most `d + 1`, however few callbacks are active; and
the depth of a state only ever decreases when the drain loop pops an operation. -/
theorem C13_inline_start_raises_depth (t : Thread) (st : __trampoline_state) (self : Nat)
    (hc : t.__current_ = some st)
    (hlt : st.__recursion_depth_ < (t.heap self).__max_recursion_depth_) :
    (start self t).__current_
        = some { __recursion_depth_ := st.__recursion_depth_ + 1, __head_ := st.__head_ } ∧
      (start self t).stack = Frame.callback self (t.heap self).continuation :: t.stack ∧
      (start self t).log = t.log ++
        [Event.start self, Event.execute self (__execute_impl (t.heap self).__receiver_)] ∧
      (∀ n, (∀ k, k < n → t.stack.length < (run k (start self t)).stack.length) →
        ∃ st2, (run n (start self t)).__current_ = some st2 ∧
          st.__recursion_depth_ + 1 ≤ st2.__recursion_depth_) ∧
      (∀ n p b rest below, t.stack = Frame.callback p (b :: rest) :: below →
        (∀ k, k < n → t.stack.length < (run k (start self t)).stack.length) →
        (run n (start self t)).stack = t.stack →
        (t.heap b).__max_recursion_depth_ ≤ st.__recursion_depth_ + 1 →
        (step (run n (start self t))).log
          = (run n (start self t)).log ++ [Event.start b, Event.defer b]) ∧
      (∀ (u : Thread) (su su2 : __trampoline_state), u.__current_ = some su →
        (step u).__current_ = some su2 → su2.__recursion_depth_ < su.__recursion_depth_ →
        su2.__recursion_depth_ = 1 ∧
          ∃ below op, u.stack = Frame.outermost :: below ∧ su.__head_ = some op) := by
  have h1 := start_inline t st self hc hlt
  have hP : ∃ fs st1, (start self t).stack = fs ++ t.stack ∧ (∀ f ∈ fs, f ≠ Frame.outermost) ∧
      (start self t).__current_ = some st1 ∧
      st.__recursion_depth_ + 1 ≤ st1.__recursion_depth_ ∧
      SameOps t.heap (start self t).heap := by
    refine ⟨[Frame.callback self (t.heap self).continuation],
      { st with __recursion_depth_ := st.__recursion_depth_ + 1 }, ?_, ?_, ?_, ?_, ?_⟩
    · rw [h1]; rfl
    · intro f hf
      simp only [List.mem_singleton] at hf
      subst hf
      simp
    · rw [h1]
    · exact Nat.le_refl _
    · rw [h1]; exact sameOps_refl t.heap
  refine ⟨by rw [h1], by rw [h1], by rw [h1], ?_, ?_, ?_⟩
  · intro n hk
    obtain ⟨_, st2, _, _, h2c, h2d, _⟩ :=
      nested_run t.heap t.stack (st.__recursion_depth_ + 1) n (start self t) hP hk
    exact ⟨st2, h2c, h2d⟩
  · intro n p b rest below hs hk hret hb
    obtain ⟨fs, st2, _, _, h2c, h2d, h2so⟩ :=
      nested_run t.heap t.stack (st.__recursion_depth_ + 1) n (start self t) hP hk
    have hs2 : (run n (start self t)).stack = Frame.callback p (b :: rest) :: below := by
      rw [hret, hs]
    have hge : ¬ st2.__recursion_depth_
        < ((run n (start self t)).heap b).__max_recursion_depth_ := by
      rw [(h2so b).2]
      omega
    rw [step_defer _ st2 p b rest below hs2 h2c hge]
  · intro u su su2 huc hu2 hdec
    rcases step_depth u su2 hu2 with ⟨hn, _⟩ | ⟨su1, hc1, hd | hd | ⟨hd, hpop⟩⟩
    · rw [huc] at hn
      exact absurd hn (by simp)
    · rw [huc] at hc1
      cases hc1
      omega
    · rw [huc] at hc1
      cases hc1
      omega
    · rw [huc] at hc1
      cases hc1
      exact ⟨hd, hpop⟩

/-- C13 in the program `pairBegins` with limit 2, at the `start` of operation 1 from the
callback of operation 0 (depth 1): the depth becomes 2, and once the callback of operation 1
has returned its sibling 2 is deferred, with one callback active. -/
theorem C13_inline_start_raises_depth_witness :
    pairThread.__current_ = some { __recursion_depth_ := 1, __head_ := none } ∧
      (1 : Nat) < (pairThread.heap 1).__max_recursion_depth_ ∧
      (start 1 pairThread).__current_
        = some { __recursion_depth_ := 1 + 1, __head_ := none } ∧
      active (run 1 (start 1 pairThread)) = 1 ∧
      (step (run 1 (start 1 pairThread))).log
        = (run 1 (start 1 pairThread)).log ++ [Event.start 2, Event.defer 2] :=
  ⟨rfl, by decide,
    (C13_inline_start_raises_depth pairThread { __recursion_depth_ := 1, __head_ := none } 1
      rfl (by decide)).1,
    by decide,
    (C13_inline_start_raises_depth pairThread { __recursion_depth_ := 1, __head_ := none } 1
      rfl (by decide)).2.2.2.2.1 1 0 2 [] [Frame.outermost] rfl
      (by
        intro k hk
        have hk0 : k = 0 := by omega
        subst hk0
        decide)
      (by decide) (by decide)⟩

/-- C14. When `start` is called on an operation with limit `M` while a trampoline state exists
with depth `d ≥ M`, the callback is not entered during that call (no frame is pushed and nothing
is executed); the operation becomes the head of the deferred list with its `__next_` link set to
the former head; the depth, the rest of the operation and every other operation, links
included, are left unchanged. -/
theorem C14_deferred_start_links_in_front (t : Thread) (st : __trampoline_state) (self : Nat)
    (hc : t.__current_ = some st)
    (hge : (t.heap self).__max_recursion_depth_ ≤ st.__recursion_depth_) :
    (start self t).__current_
        = some { __recursion_depth_ := st.__recursion_depth_, __head_ := some self } ∧
      ((start self t).heap self).__next_ = st.__head_ ∧
      ((start self t).heap self).__receiver_ = (t.heap self).__receiver_ ∧
      ((start self t).heap self).__max_recursion_depth_
        = (t.heap self).__max_recursion_depth_ ∧
      (∀ b, b ≠ self → (start self t).heap b = t.heap b) ∧
      (start self t).stack = t.stack ∧
      (start self t).log = t.log ++ [Event.start self, Event.defer self] := by
  have h1 := start_defer t st self hc (by omega)
  refine ⟨by rw [h1], ?_, ?_, ?_, ?_, by rw [h1], by rw [h1]⟩
  · rw [h1]
    simp
  · rw [h1]
    simp
  · rw [h1]
    simp
  · intro b hb
    rw [h1]
    simp [Function.update_noteq hb]

/-- C14 in the chain of three operations with limit 2, at the `start` of operation 2 from the
callback of operation 1 (depth 2). -/
theorem C14_deferred_start_links_in_front_witness :
    (run 1 (begin (chain 3 2 none) 0)).__current_
        = some { __recursion_depth_ := 2, __head_ := none } ∧
      ((run 1 (begin (chain 3 2 none) 0)).heap 2).__max_recursion_depth_ ≤ 2 ∧
      (start 2 (run 1 (begin (chain 3 2 none) 0))).__current_
        = some { __recursion_depth_ := 2, __head_ := some 2 } :=
  ⟨by decide, by decide,
    (C14_deferred_start_links_in_front (run 1 (begin (chain 3 2 none) 0))
      { __recursion_depth_ := 2, __head_ := none } 2 (by decide) (by decide)).1⟩

/-- C15. At every point of an outermost `start` the depth of the trampoline state is at least
1: it is 1 when the outermost `start` creates the state; it is exactly 1 when an operation
popped by the drain loop enters its callback; and one action leaves it as it is, increments it
by one, or is a pop of the drain loop (which resets it to 1). -/
theorem C15_depth_at_least_one (heap : Nat → __operation) (root n : Nat) :
    (begin heap root).__current_ = some { __recursion_depth_ := 1, __head_ := none } ∧
      (∀ st, (run n (begin heap root)).__current_ = some st → 1 ≤ st.__recursion_depth_) ∧
      (∀ st op below, (run n (begin heap root)).stack = Frame.outermost :: below →
        (run n (begin heap root)).__current_ = some st → st.__head_ = some op →
        (run (n + 1) (begin heap root)).__current_
            = some { __recursion_depth_ := 1
                     __head_ := ((run n (begin heap root)).heap op).__next_ } ∧
          (run (n + 1) (begin heap root)).stack
            = Frame.callback op ((run n (begin heap root)).heap op).continuation ::
              Frame.outermost :: below) ∧
      (∀ st st2, (run n (begin heap root)).__current_ = some st →
        (run (n + 1) (begin heap root)).__current_ = some st2 →
        st2.__recursion_depth_ = st.__recursion_depth_ ∨
          st2.__recursion_depth_ = st.__recursion_depth_ + 1 ∨
          (st2.__recursion_depth_ = 1 ∧
            ∃ below op, (run n (begin heap root)).stack = Frame.outermost :: below ∧
              st.__head_ = some op)) := by
  refine ⟨by rw [begin_eq], depth_pos_run n _ (depth_pos_begin heap root), ?_, ?_⟩
  · intro st op below hs hc hh
    rw [run_succ, step_pop _ st op below hs hc hh]
    exact ⟨rfl, rfl⟩
  · intro st st2 hc h2
    rw [run_succ] at h2
    rcases step_depth _ st2 h2 with ⟨hn, _⟩ | ⟨st1, hc1, hd⟩
    · rw [hc] at hn
      exact absurd hn (by simp)
    · rw [hc] at hc1
      cases hc1
      exact hd

/-- C16. For a chain of `N ≥ 1` operations with limit `L ≥ 1` in which each callback begins the
next, the operations that pass through the deferred list (are deferred, and popped by the
drain loop) are exactly those at the addresses `L, 2 L, ...` below `N` (chain positions
`k L + 1`), so `(N - 1) / L` of them, which is `N - L` only when `L = 1` or `N ≤ L + 1`; the
`k`-th iteration of the drain loop executes the popped operation and the chain operations up to
the next deferred one, `min L (N - k L)` operations in all, nested inside one another; and the
popped operation enters its callback at depth 1. -/
theorem C16_chain_deferred_every_Lth (N L : Nat) (env : Option Env) (hN : 1 ≤ N)
    (hL : 1 ≤ L) :
    (∃ n, (run n (begin (chain N L env) 0)).stack = [] ∧
      deferred (run n (begin (chain N L env) 0)).log
        = (List.range ((N - 1) / L)).map (fun k => (k + 1) * L) ∧
      popped (run n (begin (chain N L env) 0)).log
        = (List.range ((N - 1) / L)).map (fun k => (k + 1) * L) ∧
      (deferred (run n (begin (chain N L env) 0)).log).length = (N - 1) / L ∧
      (iterations (run n (begin (chain N L env) 0)).log).map executed
        = (List.range ((N - 1) / L)).map
            (fun k => List.range' ((k + 1) * L) (min L (N - (k + 1) * L))) ∧
      (iterations (run n (begin (chain N L env) 0)).log).map maxNesting
        = (List.range ((N - 1) / L)).map (fun k => min L (N - (k + 1) * L))) ∧
    (∀ m st op below, (run m (begin (chain N L env) 0)).stack = Frame.outermost :: below →
      (run m (begin (chain N L env) 0)).__current_ = some st → st.__head_ = some op →
      ∃ st2, (run (m + 1) (begin (chain N L env) 0)).__current_ = some st2 ∧
        st2.__recursion_depth_ = 1 ∧
        (run (m + 1) (begin (chain N L env) 0)).log
          = (run m (begin (chain N L env) 0)).log ++
            [Event.pop op, Event.execute op
              (__execute_impl ((run m (begin (chain N L env) 0)).heap op).__receiver_)]) ∧
    ((N - 1) / L = N - L ↔ (L = 1 ∨ N ≤ L + 1)) := by
  refine ⟨?_, ?_, div_eq_sub_iff L N hL hN⟩
  · obtain ⟨M, rfl⟩ : ∃ M, N = M + 1 := ⟨N - 1, by omega⟩
    have hr : (Plan.op 0 (chainPlan M 1) Plan.done).realized (chain (M + 1) L env) :=
      chainPlan_realized (M + 1) L env (M + 1) 0 (by omega)
    have hnd : (Plan.op 0 (chainPlan M 1) Plan.done).addrs.Nodup := by
      have h := chainPlan_addrs (M + 1) 0
      have e : chainPlan (M + 1) 0 = Plan.op 0 (chainPlan M 1) Plan.done := rfl
      rw [e] at h
      rw [h]
      exact List.nodup_range' 0 (M + 1)
    obtain ⟨n, _, hs, hlog⟩ := begin_sim (chain (M + 1) L env) 0 (chainPlan M 1) hr hnd
    have hshape : outermostEvents (chain (M + 1) L env) 0 (chainPlan M 1)
        = Event.start 0 ::
          Event.execute 0 (__execute_impl ((chain (M + 1) L env) 0).__receiver_) ::
            chainTail (chain (M + 1) L env)
              (weight ((chainPlan M (0 + 1)).inline (chain (M + 1) L env) 1).deferred) 0 M :=
      rfl
    have hf : L ≤ M → M - L + 1
        ≤ weight ((chainPlan M (0 + 1)).inline (chain (M + 1) L env) 1).deferred := by
      intro hLM
      rw [(chain_inline (M + 1) L env M (0 + 1) 1).2]
      have hlt : min M (L - 1) < M := by omega
      simp only [hlt, if_true, weight, chainPlan_size]
      omega
    obtain ⟨h1, h2, _, h4, h5⟩ := chainTail_deferrals (M + 1) L env hL _ 0 M hf
    simp only [Nat.zero_add] at h1 h2 h4 h5
    have hM : M + 1 - 1 = M := by omega
    refine ⟨n, hs, ?_, ?_, ?_, ?_, ?_⟩
    · rw [hlog, hshape, hM]
      simpa [deferred] using h1
    · rw [hlog, hshape, hM]
      simpa [popped] using h2
    · rw [hlog, hshape, hM]
      have h1b : deferred (Event.start 0 ::
          Event.execute 0 (__execute_impl ((chain (M + 1) L env) 0).__receiver_) ::
            chainTail (chain (M + 1) L env)
              (weight ((chainPlan M (0 + 1)).inline (chain (M + 1) L env) 1).deferred) 0 M)
          = (List.range (M / L)).map (fun k => (k + 1) * L) := by
        simpa [deferred] using h1
      rw [h1b]
      simp
    · rw [hlog, hshape, hM]
      simpa [iterations, segments] using h4
    · rw [hlog, hshape, hM]
      simpa [iterations, segments] using h5
  · intro m st op below hs hc hh
    rw [run_succ, step_pop _ st op below hs hc hh]
    exact ⟨_, rfl, rfl, rfl⟩

/-- C16 at the chain of seven operations with limit 3. -/
theorem C16_chain_deferred_every_Lth_witness :
    1 ≤ 7 ∧ 1 ≤ 3 ∧
      ∃ n, (run n (begin (chain 7 3 none) 0)).stack = [] ∧
        deferred (run n (begin (chain 7 3 none) 0)).log = [3, 6] ∧
        (iterations (run n (begin (chain 7 3 none) 0)).log).map executed
          = [[3, 4, 5], [6]] :=
  ⟨by decide, by decide,
    (C16_chain_deferred_every_Lth 7 3 none (by decide) (by decide)).1.imp
      (fun _ h => ⟨h.1, by simpa using h.2.1, by
        have h4 := h.2.2.2.2.1
        rw [h4]
        decide⟩)⟩

/-- C17. A limit of 0 behaves exactly like a limit of 1: for every program of `start` calls,
replacing every limit 0 by 1 gives, after every number of actions of an outermost `start`, the
same log (the same `start` calls with the same decision between running inline and deferring,
and the same callbacks executed in the same order), the same stack of active calls and the same
trampoline state; the operations in memory differ in the replaced limits only. -/
theorem C17_limit_zero_behaves_like_one (heap : Nat → __operation) (root n : Nat) :
    (run n (begin (raiseZero heap) root)).log = (run n (begin heap root)).log ∧
      (run n (begin (raiseZero heap) root)).stack = (run n (begin heap root)).stack ∧
      (run n (begin (raiseZero heap) root)).__current_
        = (run n (begin heap root)).__current_ ∧
      (run n (begin (raiseZero heap) root)).heap = raiseZero (run n (begin heap root)).heap := by
  rw [begin_raiseZero, run_raiseZero n _ (depth_pos_begin heap root)]
  exact ⟨rfl, rfl, rfl, rfl⟩
end Trampoline
